import Mathlib

/-
Verification of the frontmatter codec of the obsidian-docsystem scripts.

The development shallowly embeds the Python sources:
  * scripts/chatgpt_summary.py  (extract_frontmatter, call_model, the
    frontmatter serialization of write_summary)
  * scripts/update_timestamps.py (update_frontmatter)

Documents are modelled as strings of LF-separated lines (the repository's
convention).  The PyYAML calls `yaml.safe_load` / `yaml.safe_dump` are
modelled on the value domain the spec assigns to frontmatter metadata:
ordered mappings from plain string keys to single-line string scalars,
booleans and block sequences of string scalars.  Inputs outside that
domain are treated as parse errors by the model (`Option.none` plays the
role of the caught `yaml.YAMLError`).
-/

namespace Frontmatter

/-- Characters treated as whitespace by Python's `str.strip`. -/
def isPySpace (c : Char) : Bool :=
  c = ' ' || c = '\t' || c = '\n' || c = '\r' || c = '\x0b' || c = '\x0c'

/-- Python `str.lstrip()` on a character list. -/
def pyLstripL (l : List Char) : List Char := l.dropWhile isPySpace

/-- Python `str.rstrip()` on a character list. -/
def pyRstripL (l : List Char) : List Char := (l.reverse.dropWhile isPySpace).reverse

/-- Python `str.strip()` on a character list. -/
def pyStripL (l : List Char) : List Char := pyLstripL (pyRstripL l)

/-- Split a character list at every newline; a list with n newlines yields
n+1 pieces (the raw splitting underlying Python `str.splitlines`). -/
def splitNl : List Char → List (List Char)
  | [] => [[]]
  | c :: rest =>
    if c = '\n' then [] :: splitNl rest
    else
      match splitNl rest with
      | [] => [[c]]
      | l :: ls => (c :: l) :: ls

/-- Python `str.splitlines()` for LF-separated text: like `splitNl` but an
empty trailing piece (a trailing newline) is dropped, and `""` maps to `[]`. -/
def pySplitlinesL (l : List Char) : List (List Char) :=
  if (splitNl l).getLast? = some [] then (splitNl l).dropLast else splitNl l

/-- Python `"\n".join(...)` on character lists. -/
def joinNlL : List (List Char) → List Char
  | [] => []
  | [l] => l
  | l :: ls => l ++ '\n' :: joinNlL ls

/-- Python `list.index(x)` returning `none` instead of raising `ValueError`. -/
def pyIndexOf (tgt : List Char) : List (List Char) → Option Nat
  | [] => none
  | l :: rest => if l = tgt then some 0 else (pyIndexOf tgt rest).map (· + 1)

/-- Surrounding-space trimming used when reading a scalar out of a line. -/
def trimSpacesL (l : List Char) : List Char :=
  ((l.dropWhile (· = ' ')).reverse.dropWhile (· = ' ')).reverse

/-- The three-dash frontmatter delimiter (`FRONTMATTER_DELIMITER`). -/
def dashL : List Char := ['-', '-', '-']

/-- Metadata values in the spec's closed domain: string scalars, booleans,
and block sequences of string scalars. -/
inductive YamlValue where
  | str (s : String)
  | bool (b : Bool)
  | seq (items : List String)
deriving DecidableEq, Repr

/-- An ordered string-keyed mapping, the model of a Python dict of
frontmatter fields (insertion order preserved, keys unique). -/
abbrev Metadata := List (String × YamlValue)

/-- Result of a successful `yaml.safe_load`: a mapping, a sequence, a
scalar, or `None` (empty document). -/
inductive Loaded where
  | null
  | scalar (v : YamlValue)
  | list (items : List String)
  | dict (m : Metadata)
deriving DecidableEq, Repr

/-- Python truthiness of a loaded value (`None`, `False`, `""`, `[]` and
`{}` are falsy); used to model the `yaml.safe_load(...) or {}` idiom. -/
def Loaded.truthy : Loaded → Bool
  | .null => false
  | .scalar (.str s) => s ≠ ""
  | .scalar (.bool b) => b
  | .scalar (.seq l) => !l.isEmpty
  | .list l => !l.isEmpty
  | .dict m => !m.isEmpty

/-- Characters a scalar may contain while being emitted unquoted by the
modelled dumper and read back unchanged. -/
def plainChar (c : Char) : Bool :=
  c.isAlphanum || c = ' ' || c = '_' || c = '-' || c = '.'

/-- Words PyYAML resolves as booleans or null, hence never emitted as
plain string scalars. -/
def reservedWords : List (List Char) :=
  ["true".toList, "false".toList, "null".toList, "yes".toList, "no".toList,
   "on".toList, "off".toList, "True".toList, "False".toList, "Null".toList,
   "Yes".toList, "No".toList, "On".toList, "Off".toList, "TRUE".toList,
   "FALSE".toList, "NULL".toList, "YES".toList, "NO".toList, "ON".toList,
   "OFF".toList]

/-- A scalar the modelled dumper emits unquoted: nonempty, starting with a
letter, made of plain characters, not ending in a space, and not a word
the YAML resolver would retype. -/
def isPlainSafeL (l : List Char) : Bool :=
  match l with
  | [] => false
  | c :: _ =>
    c.isAlpha && l.all plainChar && l.getLast? != some ' ' &&
      !(reservedWords.contains l)

/-- A string scalar inside the modelled dump/load domain: no newline and
no single quote (everything else survives single-quoting). -/
def dumpableScalarL (l : List Char) : Bool :=
  l.all (fun c => c ≠ '\n' && c ≠ '\'')

/-- Scalar rendering of `yaml.safe_dump`: plain when safe, single-quoted
otherwise. -/
def dumpScalarL (l : List Char) : List Char :=
  if isPlainSafeL l then l else '\'' :: (l ++ ['\''])

/-- The lines `yaml.safe_dump(..., sort_keys=False)` emits for one
key/value pair. -/
def entryLinesL : String × YamlValue → List (List Char)
  | (k, .str s) => [k.toList ++ ':' :: ' ' :: dumpScalarL s.toList]
  | (k, .bool b) => [k.toList ++ ':' :: ' ' :: (if b then "true".toList else "false".toList)]
  | (k, .seq items) => (k.toList ++ [':']) :: items.map (fun s => '-' :: ' ' :: dumpScalarL s.toList)

/-- All lines of the dump of a mapping, in insertion order. -/
def dumpLinesL (m : Metadata) : List (List Char) :=
  m.foldr (fun e acc => entryLinesL e ++ acc) []

/-- Model of `yaml.safe_dump(m, sort_keys=False)`: the joined lines plus a final
newline; the empty mapping dumps as the flow token `\x7b\x7d`. -/
def safeDumpL (m : Metadata) : List Char :=
  match m with
  | [] => ['\x7b', '\x7d', '\n']
  | _ :: _ => joinNlL (dumpLinesL m) ++ ['\n']

/-- Split a line at its first colon. -/
def splitColonL : List Char → Option (List Char × List Char)
  | [] => none
  | c :: rest =>
    if c = ':' then some ([], rest)
    else (splitColonL rest).map (fun p => (c :: p.1, p.2))

/-- Read a `key: value` or `key:` mapping line; the key must be a plain
scalar and an inline value must be separated by a space. -/
def splitKeyLineL (l : List Char) : Option (List Char × Option (List Char)) :=
  match splitColonL l with
  | none => none
  | some (k, rest) =>
    if isPlainSafeL k then
      match rest with
      | [] => some (k, none)
      | c :: v => if c = ' ' then some (k, some (trimSpacesL v)) else none
    else none

/-- Read one scalar token: a single-quoted string, a boolean word, or a
plain string scalar. -/
def parseScalarL (v : List Char) : Option YamlValue :=
  match v with
  | [] => none
  | c :: rest =>
    if c = '\'' then
      match rest.getLast? with
      | none => none
      | some d =>
        if d = '\'' then
          if rest.dropLast.all (fun x => x ≠ '\'' && x ≠ '\n') then
            some (.str ⟨rest.dropLast⟩)
          else none
        else none
    else
      if v = "true".toList then some (.bool true)
      else if v = "false".toList then some (.bool false)
      else if isPlainSafeL v then some (.str ⟨v⟩)
      else none

/-- Whether a line is a block-sequence item (`- x`, possibly indented). -/
def isItemLineL (l : List Char) : Bool :=
  match l.dropWhile (· = ' ') with
  | c :: d :: _ => c = '-' && d = ' '
  | _ => false

/-- Read a block-sequence item line into its string scalar. -/
def parseItemL (l : List Char) : Option String :=
  match l.dropWhile (· = ' ') with
  | c :: d :: rest =>
    if c = '-' && d = ' ' then
      match parseScalarL (trimSpacesL rest) with
      | some (.str s) => some s
      | _ => none
    else none
  | _ => none

/-- Take the leading run of sequence-item lines. -/
def takeItemsL : List (List Char) → List (List Char) × List (List Char)
  | [] => ([], [])
  | l :: rest =>
    if isItemLineL l then (l :: (takeItemsL rest).1, (takeItemsL rest).2)
    else ([], l :: rest)

/-- Read every line of a run of sequence items. -/
def parseItemsL : List (List Char) → Option (List String)
  | [] => some []
  | l :: rest =>
    match parseItemL l, parseItemsL rest with
    | some s, some items => some (s :: items)
    | _, _ => none

/-- Read the lines of a block mapping, producing its entries in textual
order (fuel-driven so the definition reduces by `decide`). -/
def parseMapGo : Nat → List (List Char) → Option (List (String × YamlValue))
  | _, [] => some []
  | 0, _ :: _ => none
  | fuel + 1, l :: rest =>
    match splitKeyLineL l with
    | none => none
    | some (k, some v) =>
      match parseScalarL v, parseMapGo fuel rest with
      | some yv, some es => some ((⟨k⟩, yv) :: es)
      | _, _ => none
    | some (k, none) =>
      let p := takeItemsL rest
      if p.1.isEmpty then none
      else
        match parseItemsL p.1, parseMapGo fuel p.2 with
        | some items, some es => some ((⟨k⟩, .seq items) :: es)
        | _, _ => none

/-- Read the lines of a block mapping. -/
def parseMapL (ls : List (List Char)) : Option (List (String × YamlValue)) :=
  parseMapGo ls.length ls

/-- Python dict assignment `m[k] = v`: overwrite in place when the key
exists, append otherwise. -/
def setField (m : Metadata) (k : String) (v : YamlValue) : Metadata :=
  if m.any (fun p => p.1 = k) then m.map (fun p => if p.1 = k then (k, v) else p)
  else m ++ [(k, v)]

/-- Python `dict.get(k)`. -/
def getField (m : Metadata) (k : String) : Option YamlValue :=
  (m.find? (fun p => p.1 = k)).map (·.2)

/-- Build a dict from parsed entries the way PyYAML constructs mappings:
first occurrence fixes the position, later duplicates overwrite. -/
def dictOf (entries : List (String × YamlValue)) : Metadata :=
  entries.foldl (fun m e => setField m e.1 e.2) []

/-- Interpret the non-blank lines of a block: a run of item lines is a
sequence, a single colon-free line is a scalar, anything else is read as
a block mapping. -/
def loadLines (lines : List (List Char)) : Option Loaded :=
  if lines.all isItemLineL then (parseItemsL lines).map Loaded.list
  else
    match lines with
    | [l] =>
      if (splitColonL l).isSome then (parseMapL lines).map (fun es => .dict (dictOf es))
      else (parseScalarL (pyStripL l)).map .scalar
    | _ => (parseMapL lines).map (fun es => .dict (dictOf es))

/-- Model of `yaml.safe_load` on a frontmatter block, restricted to the modelled
subset; `none` models a raised `yaml.YAMLError`. -/
def safeLoadL (block : List Char) : Option Loaded :=
  if pyStripL block = [] then some .null
  else if pyStripL block = ['\x7b', '\x7d'] then some (.dict [])
  else loadLines ((pySplitlinesL block).filter (fun l => pyStripL l ≠ []))

/-- The tail of `extract_frontmatter` once the block has been delimited:
`meta = yaml.safe_load(yaml_block) or {}` followed by the
`isinstance(meta, dict)` guard, with `yaml.YAMLError` degrading to the
empty mapping (chatgpt_summary.py lines 72-76). -/
def decodeBlock (block : List Char) (body : String) : Metadata × String :=
  match safeLoadL block with
  | none => ([], body)
  | some L0 =>
    match (if L0.truthy then L0 else .dict []) with
    | .dict m => (m, body)
    | _ => ([], body)

/-- The function `extract_frontmatter` of chatgpt_summary.py (lines 55-76), as a pure
function of the file text: returns `(metadata_dict, body_text)`. -/
def extract_frontmatter (text : String) : Metadata × String :=
  match pySplitlinesL text.toList with
  | [] => ([], text)
  | first :: rest =>
    if pyStripL first = dashL then
      match pyIndexOf dashL rest with
      | none => ([], text)
      | some i =>
        decodeBlock (joinNlL (rest.take i)) ⟨joinNlL ((first :: rest).drop (i + 2))⟩
    else ([], text)

/-- The codec's encode operation: the serialization of write_summary
(chatgpt_summary.py lines 120-126) applied to a mapping and a body:
`"---\n" + yaml.safe_dump(m, sort_keys=False).strip() + "\n---\n\n" + body`. -/
def encode (metadata : Metadata) (body : String) : String :=
  ⟨"---\n".toList ++ pyStripL (safeDumpL metadata) ++ "\n---\n\n".toList ++ body.toList⟩

/-- The file content written by case 2 of `update_frontmatter`
(update_timestamps.py lines 74-86): a fresh block holding only `updated`,
followed by the whitespace-stripped original text and a newline. -/
def freshBlock (today : String) (text : String) : String :=
  ⟨"---\n".toList ++ pyRstripL (safeDumpL [("updated", .str today)]) ++
    "\n---\n\n".toList ++ (pyStripL text.toList ++ ['\n'])⟩

/-- The function `update_frontmatter` of update_timestamps.py (lines 27-86) as a pure
function of today's date string and the file text.  The first component
is the content passed to `path.write_text` (`none` when no write
happens), the second is the returned boolean. -/
def update_frontmatter (today : String) (text : String) : Option String × Bool :=
  match pySplitlinesL text.toList with
  | first :: rest =>
    if pyStripL first = dashL then
      match pyIndexOf dashL rest with
      | none => (none, false)
      | some i =>
        match safeLoadL (joinNlL (rest.take i)) with
        | none => (none, false)
        | some L0 =>
          match (if L0.truthy then L0 else .dict []) with
          | .dict meta =>
            if getField meta "updated" ≠ some (.str today) then
              (some ⟨"---\n".toList ++
                      pyRstripL (safeDumpL (setField meta "updated" (.str today))) ++
                      "\n---\n\n".toList ++ joinNlL (rest.drop (i + 1))⟩,
               true)
            else (none, false)
          | _ => (none, false)
    else (some (freshBlock today text), true)
  | [] => (some (freshBlock today text), true)

/-- The request `client.chat.completions.create(...)` receives. -/
structure ChatRequest where
  model : String
  systemContent : String
  userContent : String
  max_tokens : Nat
  temperature : ℚ
deriving DecidableEq, Repr

/-- The prompt `build_system_prompt` of chatgpt_summary.py (lines 79-93) returns. -/
def build_system_prompt : String :=
  "You are a documentation engineer. Summarize the content of the " ++
  "Markdown document into a clean, structured technical summary. " ++
  "Your output MUST be Markdown. Avoid opinions. Keep it concise, " ++
  "informative, and suitable for a doc-as-code environment.\n\n" ++
  "Structure your output like this:\n\n" ++
  "## Overview\n" ++
  "- What the document covers\n\n" ++
  "## Key Points\n" ++
  "- Bullet list of essential concepts\n\n" ++
  "## Recommended Uses\n" ++
  "- Where this summary is useful\n"

/-- The function `call_model` of chatgpt_summary.py (lines 96-107), modelled as the
request it builds.  The function receives `model`, `max_tokens` and
`temperature` from `main`'s CLI arguments but the request uses the
literals `"gpt-4o-mini"`, `600` and `0.2` from lines 99, 104 and 105. -/
def call_model (body_text : String) (model : String) (max_tokens : Nat)
    (temperature : ℚ) : ChatRequest :=
  { model := "gpt-4o-mini"
    systemContent := build_system_prompt
    userContent := body_text
    max_tokens := 600
    temperature := 2 / 10 }


/-- A value inside the modelled dump/load domain. -/
def wfValue : YamlValue → Bool
  | .str s => dumpableScalarL s.toList
  | .bool _ => true
  | .seq items => !items.isEmpty && items.all (fun s => dumpableScalarL s.toList)

/-- A well-formed metadata mapping: plain keys, values in the modelled
domain, and no duplicate keys. -/
def wfMeta (m : Metadata) : Prop :=
  (∀ p ∈ m, isPlainSafeL p.1.toList ∧ wfValue p.2) ∧ (m.map Prod.fst).Nodup

instance (m : Metadata) : Decidable (wfMeta m) := by
  unfold wfMeta; infer_instance

/-- The lines standing between the two marker lines after encoding `m`. -/
def blockLinesOf (m : Metadata) : List (List Char) :=
  match m with
  | [] => [['\x7b', '\x7d']]
  | _ :: _ => dumpLinesL m

/-- A line as it occurs inside an encoded frontmatter block: nonempty, no
whitespace at either edge, newline-free, and not the marker line. -/
def goodLine (l : List Char) : Prop :=
  (∃ c rest, l = c :: rest ∧ isPySpace c = false) ∧
  (∃ c, l.getLast? = some c ∧ isPySpace c = false) ∧
  '\n' ∉ l ∧ l ≠ dashL

/- ------------------------------------------------------------------ -/
/- Lemmas about line splitting and joining.                            -/
/- ------------------------------------------------------------------ -/

theorem splitNl_cons_ne (c : Char) (rest : List Char) (hc : c ≠ '\n')
    (b : List Char) (bs : List (List Char)) (h : splitNl rest = b :: bs) :
    splitNl (c :: rest) = (c :: b) :: bs := by
  show (if c = '\n' then [] :: splitNl rest
        else
          match splitNl rest with
          | [] => [[c]]
          | l :: ls => (c :: l) :: ls) = (c :: b) :: bs
  rw [if_neg hc, h]

theorem splitNl_cons_nl (rest : List Char) :
    splitNl ('\n' :: rest) = [] :: splitNl rest := by
  simp [splitNl]

theorem splitNl_ne_nil (x : List Char) : splitNl x ≠ [] := by
  induction x with
  | nil => simp [splitNl]
  | cons c rest ih =>
    simp only [splitNl]
    split
    · simp
    · cases h : splitNl rest with
      | nil => simp
      | cons l ls => simp

theorem splitNl_no_nl (x : List Char) : ∀ p ∈ splitNl x, '\n' ∉ p := by
  induction x with
  | nil => intro p hp; simp [splitNl] at hp; simp [hp]
  | cons c rest ih =>
    intro p hp
    simp only [splitNl] at hp
    by_cases hc : c = '\n'
    · simp [hc] at hp
      rcases hp with h | h
      · simp [h]
      · exact ih p h
    · simp [hc] at hp
      rcases h : splitNl rest with _ | ⟨l, ls⟩
      · exact absurd h (splitNl_ne_nil rest)
      · rw [h] at hp
        simp at hp
        rcases hp with h1 | h1
        · subst h1
          intro hmem
          rcases List.mem_cons.mp hmem with h2 | h2
          · exact hc h2.symm
          · exact ih l (by simp [h]) h2
        · exact ih p (by simp [h, h1])

theorem joinNl_cons (a : List Char) (A : List (List Char)) (hA : A ≠ []) :
    joinNlL (a :: A) = a ++ '\n' :: joinNlL A := by
  cases A with
  | nil => exact absurd rfl hA
  | cons b B => rfl

theorem joinNl_splitNl (x : List Char) : joinNlL (splitNl x) = x := by
  induction x with
  | nil => rfl
  | cons c rest ih =>
    by_cases hc : c = '\n'
    · subst hc
      have h1 : splitNl ('\n' :: rest) = [] :: splitNl rest := by
        simp [splitNl]
      rw [h1, joinNl_cons _ _ (splitNl_ne_nil rest), ih]
      rfl
    · rcases h : splitNl rest with _ | ⟨l, ls⟩
      · exact absurd h (splitNl_ne_nil rest)
      · have hx : splitNl (c :: rest) = (c :: l) :: ls := by
          simp only [splitNl, if_neg hc, h]
        rw [hx]
        rw [h] at ih
        cases ls with
        | nil =>
          simp only [joinNlL] at ih ⊢
          rw [ih]
        | cons m ms =>
          rw [joinNl_cons _ _ (by simp)] at ih
          rw [joinNl_cons _ _ (by simp), List.cons_append, ih]

theorem splitNl_nonl_append (a : List Char) (h : '\n' ∉ a) (r : List Char) :
    splitNl (a ++ '\n' :: r) = a :: splitNl r := by
  induction a with
  | nil => simp [splitNl]
  | cons c a' ih =>
    have hc : c ≠ '\n' := fun hc => h (by simp [hc])
    have ha' : '\n' ∉ a' := fun hm => h (by simp [hm])
    simp only [List.cons_append, splitNl, if_neg hc, List.append_eq, ih ha']

theorem splitNl_join_append (A : List (List Char)) (hA : A ≠ [])
    (hnl : ∀ l ∈ A, '\n' ∉ l) (r : List Char) :
    splitNl (joinNlL A ++ '\n' :: r) = A ++ splitNl r := by
  induction A with
  | nil => exact absurd rfl hA
  | cons a A' ih =>
    cases A' with
    | nil =>
      simp only [joinNlL, List.singleton_append]
      exact splitNl_nonl_append a (hnl a (by simp)) r
    | cons b B =>
      rw [joinNl_cons _ _ (by simp), List.append_assoc, List.cons_append]
      rw [splitNl_nonl_append a (hnl a (by simp)) _]
      rw [ih (by simp) (fun l hl => hnl l (by simp [hl]))]
      simp

theorem splitNl_nonl (a : List Char) (h : '\n' ∉ a) : splitNl a = [a] := by
  induction a with
  | nil => simp [splitNl]
  | cons c a' ih =>
    have hc : c ≠ '\n' := fun hc => h (by simp [hc])
    have ha' : '\n' ∉ a' := fun hm => h (by simp [hm])
    simp only [splitNl, if_neg hc, ih ha']

theorem splitNl_join (A : List (List Char)) (hA : A ≠ [])
    (hnl : ∀ l ∈ A, '\n' ∉ l) :
    splitNl (joinNlL A) = A := by
  induction A with
  | nil => exact absurd rfl hA
  | cons a A' ih =>
    cases A' with
    | nil =>
      simp only [joinNlL]
      exact splitNl_nonl a (hnl a (by simp))
    | cons b B =>
      rw [joinNl_cons _ _ (by simp)]
      rw [splitNl_nonl_append a (hnl a (by simp)) _]
      rw [ih (by simp) (fun l hl => hnl l (by simp [hl]))]

theorem pySplit_front (A : List (List Char)) (hA : A ≠ [])
    (hnl : ∀ l ∈ A, '\n' ∉ l) (r : List Char) :
    pySplitlinesL (joinNlL A ++ '\n' :: r) = A ++ pySplitlinesL r := by
  unfold pySplitlinesL
  rw [splitNl_join_append A hA hnl r]
  rcases hsp : splitNl r with _ | ⟨b, bs⟩
  · exact absurd hsp (splitNl_ne_nil r)
  · rw [List.getLast?_append]
    rcases hl : (b :: bs).getLast? with _ | l
    · exact absurd (List.getLast?_eq_none_iff.mp hl) (by simp)
    · rw [Option.or_some]
      by_cases hle : l = []
      · subst hle
        rw [if_pos rfl, if_pos rfl, List.dropLast_append_cons]
      · rw [if_neg (by simp [hle]), if_neg (by simp [hle])]

theorem pySplit_cons_nl (r : List Char) :
    pySplitlinesL ('\n' :: r) = [] :: pySplitlinesL r := by
  have h1 : splitNl ('\n' :: r) = [] :: splitNl r := by simp [splitNl]
  unfold pySplitlinesL
  rw [h1]
  rcases hsp : splitNl r with _ | ⟨b, bs⟩
  · exact absurd hsp (splitNl_ne_nil r)
  · rw [List.getLast?_cons_cons]
    rcases hl : (b :: bs).getLast? with _ | l
    · exact absurd (List.getLast?_eq_none_iff.mp hl) (by simp)
    · by_cases hle : l = []
      · subst hle
        rw [if_pos rfl, if_pos rfl, List.dropLast_cons₂]
      · rw [if_neg (by simp [hle]), if_neg (by simp [hle])]

theorem splitNl_getLast_ne (x : List Char) (hx : x ≠ [])
    (h : x.getLast? ≠ some '\n') : (splitNl x).getLast? ≠ some [] := by
  induction x with
  | nil => exact absurd rfl hx
  | cons c rest ih =>
    cases rest with
    | nil =>
      have hc : c ≠ '\n' := by
        intro hcc; exact h (by simp [hcc])
      have : splitNl [c] = [[c]] := by simp [splitNl, hc]
      rw [this]
      simp
    | cons d rest' =>
      have hlast : (d :: rest').getLast? ≠ some '\n' := by
        intro hcon; exact h (by rw [List.getLast?_cons_cons]; exact hcon)
      have ihr := ih (by simp) hlast
      by_cases hc : c = '\n'
      · subst hc
        have h1 : splitNl ('\n' :: d :: rest') = [] :: splitNl (d :: rest') := by
          simp [splitNl]
        rw [h1]
        rcases hsp : splitNl (d :: rest') with _ | ⟨b, bs⟩
        · exact absurd hsp (splitNl_ne_nil _)
        · rw [List.getLast?_cons_cons]
          rw [hsp] at ihr
          exact ihr
      · rcases hsp : splitNl (d :: rest') with _ | ⟨b, bs⟩
        · exact absurd hsp (splitNl_ne_nil _)
        · rw [splitNl_cons_ne c _ hc b bs hsp]
          rw [hsp] at ihr
          cases bs with
          | nil => simp
          | cons m ms =>
            rw [List.getLast?_cons_cons]
            rw [List.getLast?_cons_cons] at ihr
            exact ihr

theorem joinNl_pySplit (x : List Char) (h : x.getLast? ≠ some '\n') :
    joinNlL (pySplitlinesL x) = x := by
  cases hx : x with
  | nil => rfl
  | cons c rest =>
    rw [← hx]
    have hne : x ≠ [] := by simp [hx]
    unfold pySplitlinesL
    rw [if_neg (splitNl_getLast_ne x hne h)]
    exact joinNl_splitNl x

theorem pySplitlines_no_nl (x : List Char) : ∀ p ∈ pySplitlinesL x, '\n' ∉ p := by
  intro p hp
  unfold pySplitlinesL at hp
  split at hp
  · exact splitNl_no_nl x p (List.dropLast_subset _ hp)
  · exact splitNl_no_nl x p hp

/- ------------------------------------------------------------------ -/
/- Lemmas about Python strip.                                          -/
/- ------------------------------------------------------------------ -/

theorem pyLstrip_no_space (l : List Char)
    (h : ∀ c, l.head? = some c → isPySpace c = false) : pyLstripL l = l := by
  cases l with
  | nil => rfl
  | cons c rest =>
    unfold pyLstripL
    rw [List.dropWhile_cons, if_neg (by simp [h c rfl])]

theorem pyRstrip_no_space (l : List Char)
    (h : ∀ c, l.getLast? = some c → isPySpace c = false) : pyRstripL l = l := by
  unfold pyRstripL
  have hdrop : l.reverse.dropWhile isPySpace = l.reverse := by
    cases hl : l.reverse with
    | nil => rfl
    | cons c rest =>
      have hc : isPySpace c = false := by
        apply h
        rw [← List.head?_reverse, hl]
        rfl
      rw [List.dropWhile_cons, hc]
      simp
  rw [hdrop, List.reverse_reverse]

theorem pyStrip_no_edges (l : List Char)
    (h1 : ∀ c, l.head? = some c → isPySpace c = false)
    (h2 : ∀ c, l.getLast? = some c → isPySpace c = false) : pyStripL l = l := by
  unfold pyStripL
  rw [pyRstrip_no_space l h2, pyLstrip_no_space l h1]

theorem pyRstrip_append_nl (x : List Char) :
    pyRstripL (x ++ ['\n']) = pyRstripL x := by
  unfold pyRstripL
  rw [List.reverse_append]
  simp only [List.reverse_cons, List.reverse_nil, List.nil_append, List.cons_append,
    List.nil_append, List.dropWhile_cons]
  rw [if_pos (by simp [isPySpace])]

theorem pyStrip_append_nl (x : List Char) :
    pyStripL (x ++ ['\n']) = pyStripL x := by
  unfold pyStripL
  rw [pyRstrip_append_nl]

theorem pyRstrip_getLast_no_space (l : List Char) (c : Char)
    (h : (pyRstripL l).getLast? = some c) : isPySpace c = false := by
  unfold pyRstripL at h
  rw [← List.head?_reverse, List.reverse_reverse] at h
  rcases hd : l.reverse.dropWhile isPySpace with _ | ⟨d, rest⟩
  · rw [hd] at h; simp at h
  · rw [hd] at h
    simp at h
    have := List.head?_dropWhile_not isPySpace l.reverse
    rw [hd] at this
    simp at this
    rw [← h]
    simpa using this

/- ------------------------------------------------------------------ -/
/- Facts about plain and dumped scalars.                               -/
/- ------------------------------------------------------------------ -/

theorem isPlainSafe_head (l : List Char) (h : isPlainSafeL l = true) :
    ∃ c rest, l = c :: rest ∧ c.isAlpha = true := by
  cases l with
  | nil => simp [isPlainSafeL] at h
  | cons c rest =>
    refine ⟨c, rest, rfl, ?_⟩
    unfold isPlainSafeL at h
    simp only [Bool.and_eq_true] at h
    exact h.1.1.1

theorem isPlainSafe_all (l : List Char) (h : isPlainSafeL l = true) :
    ∀ c ∈ l, plainChar c = true := by
  cases l with
  | nil => simp [isPlainSafeL] at h
  | cons c rest =>
    unfold isPlainSafeL at h
    simp only [Bool.and_eq_true] at h
    exact fun d hd => List.all_eq_true.mp h.1.1.2 d hd

theorem isPlainSafe_last_ne_space (l : List Char) (h : isPlainSafeL l = true) :
    ∀ c, l.getLast? = some c → c ≠ ' ' := by
  cases l with
  | nil => simp [isPlainSafeL] at h
  | cons c rest =>
    unfold isPlainSafeL at h
    simp only [Bool.and_eq_true] at h
    intro d hd he
    subst he
    have := h.1.2
    rw [hd] at this
    simp at this

theorem isPlainSafe_not_reserved (l : List Char) (h : isPlainSafeL l = true) :
    reservedWords.contains l = false := by
  cases l with
  | nil => simp [isPlainSafeL] at h
  | cons c rest =>
    unfold isPlainSafeL at h
    simp only [Bool.and_eq_true] at h
    simpa using h.2

theorem plainChar_ne (c : Char) (hc : plainChar c = true) :
    c ≠ ':' ∧ c ≠ '\n' ∧ c ≠ '\'' := by
  refine ⟨?_, ?_, ?_⟩ <;> rintro rfl <;> exact absurd hc (by decide)

theorem plainChar_not_space (c : Char) (hc : plainChar c = true) (hs : c ≠ ' ') :
    isPySpace c = false := by
  by_contra hcon
  simp only [Bool.not_eq_false] at hcon
  unfold isPySpace at hcon
  simp only [Bool.or_eq_true, decide_eq_true_eq] at hcon
  rcases hcon with (((((h | h) | h) | h) | h) | h) <;> subst h <;>
    first
      | exact hs rfl
      | exact absurd hc (by decide)

theorem alpha_not_space (c : Char) (h : c.isAlpha = true) : isPySpace c = false := by
  by_contra hcon
  simp only [Bool.not_eq_false] at hcon
  unfold isPySpace at hcon
  simp only [Bool.or_eq_true, decide_eq_true_eq] at hcon
  rcases hcon with (((((hh | hh) | hh) | hh) | hh) | hh) <;> subst hh <;>
    exact absurd h (by decide)

theorem alpha_ne (c : Char) (h : c.isAlpha = true) :
    c ≠ '-' ∧ c ≠ '\'' ∧ c ≠ '\x7b' ∧ c ≠ ' ' ∧ c ≠ '\n' := by
  refine ⟨?_, ?_, ?_, ?_, ?_⟩ <;> rintro rfl <;> exact absurd h (by decide)

theorem dumpable_mem (s : List Char) (hs : dumpableScalarL s = true) :
    ∀ c ∈ s, c ≠ '\n' ∧ c ≠ '\'' := by
  intro c hc
  have := List.all_eq_true.mp hs c hc
  simp only [Bool.and_eq_true, decide_eq_true_eq] at this
  exact this

theorem isPlainSafe_of_cons (c : Char) (rest : List Char)
    (h : isPlainSafeL (c :: rest) = true) : c.isAlpha = true := by
  obtain ⟨d, r, he, ha⟩ := isPlainSafe_head _ h
  rw [List.cons.injEq] at he
  rw [he.1]
  exact ha

/-- The shape facts used about a dumped scalar: its first and last
characters are never spaces, dashes or newlines. -/
theorem dumpScalar_facts (s : List Char) (hs : dumpableScalarL s = true) :
    (∃ c rest, dumpScalarL s = c :: rest ∧ isPySpace c = false ∧ c ≠ '-' ∧ c ≠ ' ') ∧
    (∃ c, (dumpScalarL s).getLast? = some c ∧ isPySpace c = false ∧ c ≠ ' ') ∧
    '\n' ∉ dumpScalarL s := by
  unfold dumpScalarL
  by_cases hp : isPlainSafeL s
  · rw [if_pos hp]
    obtain ⟨c, rest, hcons, halpha⟩ := isPlainSafe_head s hp
    subst hcons
    obtain ⟨h1, h2, _, h4, _⟩ := alpha_ne c halpha
    refine ⟨⟨c, rest, rfl, alpha_not_space c halpha, h1, h4⟩, ?_, ?_⟩
    · rcases hl : (c :: rest).getLast? with _ | d
      · simp at hl
      · have hmem : d ∈ c :: rest := List.mem_of_mem_getLast? (Option.mem_def.mpr hl)
        have hpc := isPlainSafe_all _ hp d hmem
        have hne := isPlainSafe_last_ne_space _ hp d hl
        exact ⟨d, rfl, plainChar_not_space d hpc hne, hne⟩
    · intro hmem
      have := isPlainSafe_all _ hp '\n' hmem
      exact absurd this (by decide)
  · rw [if_neg hp]
    refine ⟨⟨'\'', s ++ ['\''], rfl, by decide, by decide, by decide⟩, ?_, ?_⟩
    · refine ⟨'\'', ?_, by decide, by decide⟩
      have h2 : ('\'' :: (s ++ ['\''])) = ('\'' :: s) ++ ['\''] := by simp
      rw [h2, List.getLast?_concat]
    · intro hmem
      rcases List.mem_cons.mp hmem with h | h
      · exact absurd h.symm (by decide)
      · rcases List.mem_append.mp h with h2 | h2
        · exact (dumpable_mem s hs '\n' h2).1 rfl
        · simp at h2

theorem trimSpaces_no_edges (l : List Char)
    (h1 : ∀ c, l.head? = some c → c ≠ ' ')
    (h2 : ∀ c, l.getLast? = some c → c ≠ ' ') : trimSpacesL l = l := by
  unfold trimSpacesL
  have hleft : l.dropWhile (· = ' ') = l := by
    cases l with
    | nil => rfl
    | cons c rest =>
      rw [List.dropWhile_cons]
      simp [h1 c rfl]
  rw [hleft]
  have hrev : l.reverse.dropWhile (· = ' ') = l.reverse := by
    cases hl : l.reverse with
    | nil => rfl
    | cons c rest =>
      have hc : c ≠ ' ' := by
        apply h2
        rw [← List.head?_reverse, hl]
        rfl
      rw [List.dropWhile_cons]
      simp [hc]
  rw [hrev, List.reverse_reverse]

theorem trimSpaces_dumpScalar (s : List Char) (hs : dumpableScalarL s = true) :
    trimSpacesL (dumpScalarL s) = dumpScalarL s := by
  obtain ⟨⟨c, rest, hcons, _, _, hcsp⟩, ⟨d, hd, _, hdsp⟩, _⟩ := dumpScalar_facts s hs
  apply trimSpaces_no_edges
  · intro e he
    rw [hcons] at he
    simp at he
    rw [← he]
    exact hcsp
  · intro e he
    rw [hd] at he
    simp at he
    rw [← he]
    exact hdsp

theorem dumpable_swap (s : List Char) (hs : dumpableScalarL s = true) :
    s.all (fun x => x ≠ '\'' && x ≠ '\n') = true := by
  unfold dumpableScalarL at hs
  rw [List.all_eq_true] at hs ⊢
  intro c hc
  have := hs c hc
  simp only [Bool.and_eq_true, decide_eq_true_eq] at this ⊢
  exact ⟨this.2, this.1⟩

theorem parseScalar_cons (c : Char) (rest : List Char) :
    parseScalarL (c :: rest) =
      if c = '\'' then
        match rest.getLast? with
        | none => none
        | some d =>
          if d = '\'' then
            if rest.dropLast.all (fun x => x ≠ '\'' && x ≠ '\n') then
              some (.str ⟨rest.dropLast⟩)
            else none
          else none
      else
        if c :: rest = "true".toList then some (.bool true)
        else if c :: rest = "false".toList then some (.bool false)
        else if isPlainSafeL (c :: rest) then some (.str ⟨c :: rest⟩)
        else none := rfl

theorem parseScalar_dump (s : List Char) (hs : dumpableScalarL s = true) :
    parseScalarL (dumpScalarL s) = some (.str ⟨s⟩) := by
  by_cases hp : isPlainSafeL s
  · have hd : dumpScalarL s = s := by unfold dumpScalarL; rw [if_pos hp]
    rw [hd]
    obtain ⟨c, rest, hcons, halpha⟩ := isPlainSafe_head s hp
    obtain ⟨_, hq, _, _, _⟩ := alpha_ne c halpha
    have ht : (c :: rest) ≠ "true".toList := by
      intro he
      rw [hcons, he] at hp
      exact absurd hp (by decide)
    have hf : (c :: rest) ≠ "false".toList := by
      intro he
      rw [hcons, he] at hp
      exact absurd hp (by decide)
    rw [hcons, parseScalar_cons, if_neg hq, if_neg ht, if_neg hf, if_pos (hcons ▸ hp)]
  · have hd : dumpScalarL s = '\'' :: (s ++ ['\'']) := by
      unfold dumpScalarL
      rw [if_neg hp]
    rw [hd, parseScalar_cons, if_pos rfl, List.getLast?_concat]
    simp only [if_true]
    rw [List.dropLast_concat, if_pos (dumpable_swap s hs)]

/- ------------------------------------------------------------------ -/
/- The lines emitted for a well-formed mapping are good lines.         -/
/- ------------------------------------------------------------------ -/

theorem goodLine_strip (l : List Char) (h : goodLine l) :
    pyStripL l = l ∧ l ≠ [] := by
  obtain ⟨⟨c, rest, hcons, hcsp⟩, ⟨d, hd, hdsp⟩, _, _⟩ := h
  constructor
  · apply pyStrip_no_edges
    · intro e he
      rw [hcons] at he
      simp at he
      exact he ▸ hcsp
    · intro e he
      rw [hd] at he
      simp at he
      exact he ▸ hdsp
  · rw [hcons]
    simp

theorem keyline_good (k : List Char) (hk : isPlainSafeL k = true)
    (tail : List Char) (htail : '\n' ∉ tail)
    (hlast : ∀ c, (k ++ tail).getLast? = some c → isPySpace c = false) :
    goodLine (k ++ tail) := by
  obtain ⟨c, rest, hcons, halpha⟩ := isPlainSafe_head k hk
  obtain ⟨hdash, _, _, _, _⟩ := alpha_ne c halpha
  refine ⟨⟨c, rest ++ tail, by rw [hcons]; simp, alpha_not_space c halpha⟩, ?_, ?_, ?_⟩
  · rcases hgl : (k ++ tail).getLast? with _ | d
    · rw [List.getLast?_eq_none_iff] at hgl
      rw [hcons] at hgl
      simp at hgl
    · exact ⟨d, rfl, hlast d hgl⟩
  · intro hmem
    rcases List.mem_append.mp hmem with h1 | h1
    · have := isPlainSafe_all k hk '\n' h1
      exact absurd this (by decide)
    · exact htail h1
  · intro he
    rw [hcons] at he
    unfold dashL at he
    rw [List.cons_append, List.cons.injEq] at he
    exact hdash he.1

theorem itemline_good (s : List Char) (hs : dumpableScalarL s = true) :
    goodLine ('-' :: ' ' :: dumpScalarL s) := by
  obtain ⟨⟨c, rest, hcons, _, _, _⟩, ⟨d, hd, hdsp, _⟩, hnl⟩ := dumpScalar_facts s hs
  refine ⟨⟨'-', ' ' :: dumpScalarL s, rfl, by decide⟩, ?_, ?_, ?_⟩
  · refine ⟨d, ?_, hdsp⟩
    rw [List.getLast?_cons_cons]
    rcases hq : dumpScalarL s with _ | ⟨e, r⟩
    · rw [hq] at hcons
      simp at hcons
    · rw [← hq, List.getLast?_cons, hd]
      rfl
  · intro hmem
    rcases List.mem_cons.mp hmem with h1 | h1
    · exact absurd h1.symm (by decide)
    · rcases List.mem_cons.mp h1 with h2 | h2
      · exact absurd h2.symm (by decide)
      · exact hnl h2
  · intro he
    unfold dashL at he
    rw [List.cons.injEq] at he
    exact absurd he.2 (by simp)

theorem getLast?_append_right (x y : List Char) (hy : y ≠ []) :
    (x ++ y).getLast? = y.getLast? := by
  rw [List.getLast?_append]
  rcases hl : y.getLast? with _ | a
  · exact absurd (List.getLast?_eq_none_iff.mp hl) hy
  · rfl

theorem entryLines_good (k : String) (v : YamlValue)
    (hk : isPlainSafeL k.toList = true) (hv : wfValue v = true) :
    ∀ l ∈ entryLinesL (k, v), goodLine l := by
  cases v with
  | str s =>
    intro l hl
    simp only [entryLinesL, List.mem_singleton] at hl
    subst hl
    have hds : dumpableScalarL s.toList = true := by simpa [wfValue] using hv
    obtain ⟨⟨c, rest, hcons, _, _, _⟩, ⟨d, hd, hdsp, _⟩, hnl⟩ :=
      dumpScalar_facts s.toList hds
    apply keyline_good k.toList hk (':' :: ' ' :: dumpScalarL s.toList)
    · intro hmem
      rcases List.mem_cons.mp hmem with h | h
      · exact absurd h.symm (by decide)
      rcases List.mem_cons.mp h with h2 | h2
      · exact absurd h2.symm (by decide)
      · exact hnl h2
    · intro e he
      rw [getLast?_append_right _ _ (by simp), List.getLast?_cons_cons, hcons,
        List.getLast?_cons_cons, ← hcons, hd] at he
      simp at he
      exact he ▸ hdsp
  | bool b =>
    intro l hl
    simp only [entryLinesL, List.mem_singleton] at hl
    subst hl
    apply keyline_good k.toList hk _ ?nlgoal ?lastgoal
    case nlgoal => cases b <;> decide
    case lastgoal =>
      intro e he
      rw [getLast?_append_right _ _ (by cases b <;> simp)] at he
      cases b <;> simp at he <;> exact he ▸ (by decide : isPySpace 'e' = false)
  | seq items =>
    intro l hl
    simp only [entryLinesL] at hl
    rcases List.mem_cons.mp hl with h | h
    · subst h
      apply keyline_good k.toList hk [':'] (by decide)
      intro e he
      rw [getLast?_append_right _ _ (by decide)] at he
      simp at he
      exact he ▸ (by decide : isPySpace ':' = false)
    · rw [List.mem_map] at h
      obtain ⟨s, hsmem, heq⟩ := h
      have hds : dumpableScalarL s.toList = true := by
        unfold wfValue at hv
        simp only [Bool.and_eq_true, List.all_eq_true] at hv
        exact hv.2 s hsmem
      exact heq ▸ itemline_good s.toList hds

theorem dumpLines_cons (e : String × YamlValue) (m : Metadata) :
    dumpLinesL (e :: m) = entryLinesL e ++ dumpLinesL m := rfl

theorem entryLines_ne_nil (e : String × YamlValue) : entryLinesL e ≠ [] := by
  obtain ⟨k, v⟩ := e
  cases v <;> simp [entryLinesL]

theorem dumpLines_good (m : Metadata)
    (hm : ∀ p ∈ m, isPlainSafeL p.1.toList ∧ wfValue p.2) :
    ∀ l ∈ dumpLinesL m, goodLine l := by
  induction m with
  | nil => intro l hl; simp [dumpLinesL] at hl
  | cons e m' ih =>
    obtain ⟨k, v⟩ := e
    intro l hl
    rw [dumpLines_cons] at hl
    rcases List.mem_append.mp hl with h | h
    · obtain ⟨h1, h2⟩ := hm (k, v) (by simp)
      exact entryLines_good k v h1 h2 l h
    · exact ih (fun p hp => hm p (by simp [hp])) l h

theorem blockLines_good (m : Metadata)
    (hm : ∀ p ∈ m, isPlainSafeL p.1.toList ∧ wfValue p.2) :
    ∀ l ∈ blockLinesOf m, goodLine l := by
  cases m with
  | nil =>
    intro l hl
    simp only [blockLinesOf, List.mem_singleton] at hl
    subst hl
    exact ⟨⟨'\x7b', ['\x7d'], rfl, by decide⟩, ⟨'\x7d', rfl, by decide⟩,
      by decide, by decide⟩
  | cons e m' =>
    intro l hl
    exact dumpLines_good _ hm l hl

theorem blockLines_ne_nil (m : Metadata) : blockLinesOf m ≠ [] := by
  cases m with
  | nil => simp [blockLinesOf]
  | cons e m' =>
    rw [blockLinesOf, dumpLines_cons]
    intro h
    rcases List.append_eq_nil.mp h with ⟨h1, _⟩
    exact entryLines_ne_nil e h1

/- ------------------------------------------------------------------ -/
/- Reading back the dumped lines.                                      -/
/- ------------------------------------------------------------------ -/

theorem plain_no_colon (k : List Char) (hk : isPlainSafeL k = true) : ':' ∉ k := by
  intro hmem
  exact absurd (isPlainSafe_all k hk ':' hmem) (by decide)

theorem splitColon_append (k : List Char) (hk : ':' ∉ k) (rest : List Char) :
    splitColonL (k ++ ':' :: rest) = some (k, rest) := by
  induction k with
  | nil => simp [splitColonL]
  | cons c k' ih =>
    have hc : c ≠ ':' := fun h => hk (by simp [h])
    have hk' : ':' ∉ k' := fun h => hk (by simp [h])
    rw [List.cons_append]
    show (if c = ':' then some ([], k' ++ ':' :: rest)
          else (splitColonL (k' ++ ':' :: rest)).map (fun p => (c :: p.1, p.2)))
      = some (c :: k', rest)
    rw [if_neg hc, ih hk']
    rfl

theorem splitKeyLine_value (k : List Char) (hk : isPlainSafeL k = true)
    (v : List Char) :
    splitKeyLineL (k ++ ':' :: ' ' :: v) = some (k, some (trimSpacesL v)) := by
  unfold splitKeyLineL
  rw [splitColon_append k (plain_no_colon k hk) (' ' :: v)]
  simp only []
  rw [if_pos hk]
  rfl

theorem splitKeyLine_bare (k : List Char) (hk : isPlainSafeL k = true) :
    splitKeyLineL (k ++ [':']) = some (k, none) := by
  unfold splitKeyLineL
  have h0 : k ++ [':'] = k ++ ':' :: [] := rfl
  rw [h0, splitColon_append k (plain_no_colon k hk) []]
  simp only []
  rw [if_pos hk]

theorem itemline_is_item (s : List Char) :
    isItemLineL ('-' :: ' ' :: s) = true := by
  unfold isItemLineL
  rw [List.dropWhile_cons]
  simp

theorem keycolon_not_item (k : List Char) (hk : isPlainSafeL k = true)
    (tail : List Char) : isItemLineL (k ++ ':' :: tail) = false := by
  obtain ⟨c, rest, hcons, halpha⟩ := isPlainSafe_head k hk
  obtain ⟨hdash, _, _, hsp, _⟩ := alpha_ne c halpha
  subst hcons
  rw [List.cons_append]
  unfold isItemLineL
  rw [List.dropWhile_cons]
  simp only [decide_eq_true_eq, if_neg hsp]
  cases rest with
  | nil => simp [hdash]
  | cons d r => simp [hdash]

theorem entryLines_head_key (k : String) (v : YamlValue) :
    ∃ tail, (entryLinesL (k, v)).head? = some (k.toList ++ ':' :: tail) := by
  cases v with
  | str s => exact ⟨' ' :: dumpScalarL s.toList, rfl⟩
  | bool b => exact ⟨' ' :: (if b then "true".toList else "false".toList), rfl⟩
  | seq items => exact ⟨[], by simp [entryLinesL]⟩

theorem dumpLines_head_not_item (m : Metadata)
    (hm : ∀ p ∈ m, isPlainSafeL p.1.toList ∧ wfValue p.2) :
    ∀ l, (dumpLinesL m).head? = some l → isItemLineL l = false := by
  intro l hl
  cases m with
  | nil => simp [dumpLinesL] at hl
  | cons e m' =>
    obtain ⟨k, v⟩ := e
    rw [dumpLines_cons] at hl
    obtain ⟨tail, htail⟩ := entryLines_head_key k v
    rcases he : entryLinesL (k, v) with _ | ⟨f, fs⟩
    · exact absurd he (entryLines_ne_nil (k, v))
    · rw [he] at hl htail
      simp only [List.cons_append, List.head?_cons] at hl htail
      injection hl.symm.trans htail with h4
      rw [h4]
      exact keycolon_not_item k.toList (hm (k, v) (by simp)).1 tail

theorem takeItems_append (as bs : List (List Char))
    (ha : ∀ l ∈ as, isItemLineL l = true)
    (hb : ∀ l, bs.head? = some l → isItemLineL l = false) :
    takeItemsL (as ++ bs) = (as, bs) := by
  induction as with
  | nil =>
    cases bs with
    | nil => rfl
    | cons b bs' =>
      simp only [List.nil_append]
      show (if isItemLineL b then (b :: (takeItemsL bs').1, (takeItemsL bs').2)
            else ([], b :: bs')) = ([], b :: bs')
      rw [if_neg (by simp [hb b rfl])]
  | cons a as' ih =>
    rw [List.cons_append]
    show (if isItemLineL a
          then (a :: (takeItemsL (as' ++ bs)).1, (takeItemsL (as' ++ bs)).2)
          else ([], a :: (as' ++ bs))) = (a :: as', bs)
    rw [if_pos (ha a (by simp)), ih (fun l hl => ha l (by simp [hl])) ]

theorem parseItem_dump (s : String) (hs : dumpableScalarL s.toList = true) :
    parseItemL ('-' :: ' ' :: dumpScalarL s.toList) = some s := by
  have hdw : ('-' :: ' ' :: dumpScalarL s.toList).dropWhile (· = ' ')
      = '-' :: ' ' :: dumpScalarL s.toList := by
    rw [List.dropWhile_cons]
    simp
  unfold parseItemL
  rw [hdw]
  simp only []
  rw [if_pos (by decide), trimSpaces_dumpScalar s.toList hs,
    parseScalar_dump s.toList hs]
  rfl

theorem parseItems_dump (items : List String)
    (h : ∀ s ∈ items, dumpableScalarL s.toList = true) :
    parseItemsL (items.map (fun s => '-' :: ' ' :: dumpScalarL s.toList)) =
      some items := by
  induction items with
  | nil => rfl
  | cons s items' ih =>
    simp only [List.map_cons]
    show (match parseItemL ('-' :: ' ' :: dumpScalarL s.toList),
            parseItemsL (items'.map (fun s => '-' :: ' ' :: dumpScalarL s.toList)) with
          | some t, some ts => some (t :: ts)
          | _, _ => none) = some (s :: items')
    rw [parseItem_dump s (h s (by simp)), ih (fun t ht => h t (by simp [ht]))]

theorem parseMapGo_succ_cons (fuel : Nat) (l : List Char) (rest : List (List Char)) :
    parseMapGo (fuel + 1) (l :: rest) =
      match splitKeyLineL l with
      | none => none
      | some (k, some v) =>
        match parseScalarL v, parseMapGo fuel rest with
        | some yv, some es => some ((⟨k⟩, yv) :: es)
        | _, _ => none
      | some (k, none) =>
        if (takeItemsL rest).1.isEmpty then none
        else
          match parseItemsL (takeItemsL rest).1, parseMapGo fuel (takeItemsL rest).2 with
          | some items, some es => some ((⟨k⟩, .seq items) :: es)
          | _, _ => none := rfl

theorem parseMapGo_dump (m : Metadata)
    (hm : ∀ p ∈ m, isPlainSafeL p.1.toList ∧ wfValue p.2) :
    ∀ fuel, (dumpLinesL m).length ≤ fuel →
      parseMapGo fuel (dumpLinesL m) = some m := by
  induction m with
  | nil =>
    intro fuel _
    cases fuel <;> rfl
  | cons e m' ih =>
    obtain ⟨k, v⟩ := e
    intro fuel hf
    obtain ⟨hk, hv⟩ := hm (k, v) (by simp)
    have hm' : ∀ p ∈ m', isPlainSafeL p.1.toList ∧ wfValue p.2 :=
      fun p hp => hm p (by simp [hp])
    cases v with
    | str s =>
      have hds : dumpableScalarL s.toList = true := by simpa [wfValue] using hv
      have hlines : dumpLinesL ((k, .str s) :: m') =
          (k.toList ++ ':' :: ' ' :: dumpScalarL s.toList) :: dumpLinesL m' := rfl
      rw [hlines] at hf ⊢
      cases fuel with
      | zero => simp at hf
      | succ f =>
        rw [parseMapGo_succ_cons, splitKeyLine_value k.toList hk _]
        simp only []
        rw [trimSpaces_dumpScalar s.toList hds, parseScalar_dump s.toList hds,
          ih hm' f (by simp at hf; omega)]
        rfl
    | bool b =>
      cases b with
      | false =>
        have hlines : dumpLinesL ((k, .bool false) :: m') =
            (k.toList ++ ':' :: ' ' :: "false".toList) :: dumpLinesL m' := rfl
        rw [hlines] at hf ⊢
        cases fuel with
        | zero => simp at hf
        | succ f =>
          rw [parseMapGo_succ_cons, splitKeyLine_value k.toList hk _]
          simp only []
          rw [show trimSpacesL ("false".toList) = "false".toList from by decide,
            show parseScalarL ("false".toList) = some (.bool false) from by decide,
            ih hm' f (by simp at hf; omega)]
          rfl
      | true =>
        have hlines : dumpLinesL ((k, .bool true) :: m') =
            (k.toList ++ ':' :: ' ' :: "true".toList) :: dumpLinesL m' := rfl
        rw [hlines] at hf ⊢
        cases fuel with
        | zero => simp at hf
        | succ f =>
          rw [parseMapGo_succ_cons, splitKeyLine_value k.toList hk _]
          simp only []
          rw [show trimSpacesL ("true".toList) = "true".toList from by decide,
            show parseScalarL ("true".toList) = some (.bool true) from by decide,
            ih hm' f (by simp at hf; omega)]
          rfl
    | seq items =>
      have hwf : items ≠ [] ∧ ∀ s ∈ items, dumpableScalarL s.toList = true := by
        unfold wfValue at hv
        simp only [Bool.and_eq_true, List.all_eq_true, Bool.not_eq_true',
          List.isEmpty_eq_false] at hv
        exact ⟨hv.1, hv.2⟩
      have hlines : dumpLinesL ((k, .seq items) :: m') =
          (k.toList ++ [':']) ::
            (items.map (fun s => '-' :: ' ' :: dumpScalarL s.toList) ++ dumpLinesL m') := by
        rw [dumpLines_cons]
        rfl
      rw [hlines] at hf ⊢
      cases fuel with
      | zero => simp at hf
      | succ f =>
        rw [parseMapGo_succ_cons, splitKeyLine_bare k.toList hk]
        simp only []
        rw [takeItems_append _ _
          (fun l hl => by
            rw [List.mem_map] at hl
            obtain ⟨s, _, heq⟩ := hl
            exact heq ▸ itemline_is_item (dumpScalarL s.toList))
          (dumpLines_head_not_item m' hm')]
        rw [if_neg (by simpa using hwf.1)]
        rw [parseItems_dump items hwf.2, ih hm' f ?flen]
        · rfl
        case flen =>
          have := hf
          simp only [List.length_cons, List.length_append, List.length_map] at this
          omega

theorem setField_not_mem (m : Metadata) (k : String) (v : YamlValue)
    (h : m.any (fun p => p.1 = k) = false) : setField m k v = m ++ [(k, v)] := by
  unfold setField
  rw [h]
  simp

theorem foldl_setField_disjoint (es : List (String × YamlValue)) :
    ∀ acc : Metadata,
      (∀ p ∈ es, acc.any (fun q => q.1 = p.1) = false) →
      (es.map Prod.fst).Nodup →
      es.foldl (fun m e => setField m e.1 e.2) acc = acc ++ es := by
  induction es with
  | nil => intro acc _ _; simp
  | cons e es' ih =>
    intro acc hdisj hnd
    simp only [List.foldl_cons]
    rw [setField_not_mem acc e.1 e.2 (hdisj e (by simp))]
    have hnotin : e.1 ∉ es'.map Prod.fst :=
      (List.nodup_cons.mp (by simpa using hnd)).1
    rw [ih (acc ++ [e]) ?hd ?hn]
    · simp
    case hd =>
      intro p hp
      rw [List.any_append, hdisj p (by simp [hp])]
      have h2 : ¬(e.1 = p.1) := by
        intro hcon
        exact hnotin (hcon ▸ List.mem_map_of_mem Prod.fst hp)
      simp only [Bool.false_or, List.any_cons, List.any_nil, Bool.or_false,
        decide_eq_false_iff_not]
      exact h2
    case hn => exact (List.nodup_cons.mp (by simpa using hnd)).2

theorem dictOf_nodup_id (es : List (String × YamlValue))
    (h : (es.map Prod.fst).Nodup) : dictOf es = es := by
  unfold dictOf
  simpa using foldl_setField_disjoint es [] (by simp) h

theorem parseMapL_dump (m : Metadata)
    (hm : ∀ p ∈ m, isPlainSafeL p.1.toList ∧ wfValue p.2) :
    parseMapL (dumpLinesL m) = some m :=
  parseMapGo_dump m hm (dumpLinesL m).length le_rfl

theorem joinNl_head? (l : List Char) (A : List (List Char)) (hl : l ≠ []) :
    (joinNlL (l :: A)).head? = l.head? := by
  cases A with
  | nil => rfl
  | cons b B =>
    rw [joinNl_cons _ _ (by simp)]
    cases l with
    | nil => exact absurd rfl hl
    | cons c cl => rfl

theorem joinNl_getLast? (A : List (List Char)) (l : List Char)
    (hA : A.getLast? = some l) (hl : l ≠ []) :
    (joinNlL A).getLast? = l.getLast? := by
  induction A with
  | nil => simp at hA
  | cons a A' ih =>
    cases A' with
    | nil =>
      simp at hA
      subst hA
      rfl
    | cons b B =>
      rw [List.getLast?_cons_cons] at hA
      have hjoin := ih hA
      rw [joinNl_cons _ _ (by simp)]
      rw [getLast?_append_right a ('\n' :: joinNlL (b :: B)) (by simp)]
      rcases hj : joinNlL (b :: B) with _ | ⟨c, cs⟩
      · rw [hj] at hjoin
        exact absurd (List.getLast?_eq_none_iff.mp hjoin.symm) hl
      · rw [List.getLast?_cons_cons]
        rw [hj] at hjoin
        exact hjoin

theorem loadLines_dump (m : Metadata) (hm : ∀ p ∈ m, isPlainSafeL p.1.toList ∧ wfValue p.2)
    (hnd : (m.map Prod.fst).Nodup) (hne : m ≠ []) :
    loadLines (dumpLinesL m) = some (.dict m) := by
  rcases hm0 : m with _ | ⟨⟨k, v⟩, m'⟩
  · exact absurd hm0 hne
  subst hm0
  have hkplain := (hm (k, v) (by simp)).1
  obtain ⟨tail, htail⟩ := entryLines_head_key k v
  obtain ⟨rest, hrest⟩ : ∃ rest,
      dumpLinesL ((k, v) :: m') = (k.toList ++ ':' :: tail) :: rest := by
    rw [dumpLines_cons]
    rcases he : entryLinesL (k, v) with _ | ⟨f, fs⟩
    · exact absurd he (entryLines_ne_nil (k, v))
    · rw [he] at htail
      simp only [List.head?_cons] at htail
      injection htail with hf
      exact ⟨fs ++ dumpLinesL m', by rw [hf]; rfl⟩
  have hallitem : (dumpLinesL ((k, v) :: m')).all isItemLineL = false := by
    rw [hrest]
    simp only [List.all_cons, keycolon_not_item k.toList hkplain tail,
      Bool.false_and]
  unfold loadLines
  rw [if_neg (by rw [hallitem]; simp)]
  rcases hshape : dumpLinesL ((k, v) :: m') with _ | ⟨l0, ls⟩
  · rw [hshape] at hrest
    simp at hrest
  have hl0 : l0 = k.toList ++ ':' :: tail ∧ ls = rest := by
    have := hrest.symm.trans hshape
    rw [List.cons.injEq] at this
    exact ⟨this.1.symm, this.2.symm⟩
  cases ls with
  | nil =>
    simp only []
    rw [if_pos (by
      rw [hl0.1, splitColon_append k.toList (plain_no_colon _ hkplain) tail]
      rfl)]
    rw [← hshape, parseMapL_dump _ hm]
    simp only [Option.map_some']
    rw [dictOf_nodup_id _ hnd]
  | cons l1 ls' =>
    simp only []
    rw [← hshape, parseMapL_dump _ hm]
    simp only [Option.map_some']
    rw [dictOf_nodup_id _ hnd]

theorem strip_join_good (A : List (List Char)) (hA : A ≠ [])
    (hgood : ∀ l ∈ A, goodLine l) :
    pyStripL (joinNlL A) = joinNlL A := by
  rcases A with _ | ⟨l0, A'⟩
  · exact absurd rfl hA
  obtain ⟨⟨c, crest, hcons, hcsp⟩, _, _, _⟩ := hgood l0 (by simp)
  rcases hlast : (l0 :: A').getLast? with _ | ll
  · simp at hlast
  have hllmem : ll ∈ l0 :: A' := List.mem_of_mem_getLast? (Option.mem_def.mpr hlast)
  obtain ⟨_, ⟨d, hd, hdsp⟩, _, _⟩ := hgood ll hllmem
  have hllne : ll ≠ [] := by
    intro hcon
    rw [hcon] at hd
    simp at hd
  apply pyStrip_no_edges
  · intro e he
    rw [joinNl_head? l0 A' (by rw [hcons]; simp)] at he
    rw [hcons] at he
    simp at he
    exact he ▸ hcsp
  · intro e he
    rw [joinNl_getLast? (l0 :: A') ll hlast hllne, hd] at he
    simp at he
    exact he ▸ hdsp

theorem pySplit_join_good (A : List (List Char)) (hA : A ≠ [])
    (hgood : ∀ l ∈ A, goodLine l) :
    pySplitlinesL (joinNlL A) = A := by
  unfold pySplitlinesL
  rw [splitNl_join A hA (fun l hl => (hgood l hl).2.2.1)]
  rcases hlast : A.getLast? with _ | ll
  · exact absurd (List.getLast?_eq_none_iff.mp hlast) hA
  · have hllmem : ll ∈ A := List.mem_of_mem_getLast? (Option.mem_def.mpr hlast)
    obtain ⟨⟨c, crest, hcons, _⟩, _, _, _⟩ := hgood ll hllmem
    rw [if_neg (by rw [hcons]; simp)]

theorem dumpLines_first (k : String) (v : YamlValue) (m' : Metadata) :
    ∃ tail rest, dumpLinesL ((k, v) :: m') = (k.toList ++ ':' :: tail) :: rest := by
  obtain ⟨tail, htail⟩ := entryLines_head_key k v
  rcases he : entryLinesL (k, v) with _ | ⟨f, fs⟩
  · exact absurd he (entryLines_ne_nil (k, v))
  · rw [he] at htail
    simp only [List.head?_cons] at htail
    injection htail with hf
    exact ⟨tail, fs ++ dumpLinesL m', by rw [dumpLines_cons, he, hf]; rfl⟩

theorem safeLoad_blockLines (m : Metadata) (hm : wfMeta m) :
    safeLoadL (joinNlL (blockLinesOf m)) = some (.dict m) := by
  obtain ⟨hment, hnd⟩ := hm
  cases m with
  | nil => decide
  | cons e0 m' =>
    obtain ⟨k0, v0⟩ := e0
    have hgood : ∀ l ∈ dumpLinesL ((k0, v0) :: m'), goodLine l :=
      dumpLines_good _ hment
    have hAne : dumpLinesL ((k0, v0) :: m') ≠ [] := by
      rw [dumpLines_cons]
      intro hcon
      exact entryLines_ne_nil (k0, v0) (List.append_eq_nil.mp hcon).1
    obtain ⟨tail, rest, hrest⟩ := dumpLines_first k0 v0 m'
    obtain ⟨c, crest, hkcons, hkalpha⟩ :=
      isPlainSafe_head k0.toList (hment (k0, v0) (by simp)).1
    have hhead : (joinNlL (dumpLinesL ((k0, v0) :: m'))).head? = some c := by
      rw [hrest, joinNl_head? _ _ (by rw [hkcons]; simp), hkcons]
      rfl
    have hml : blockLinesOf ((k0, v0) :: m') = dumpLinesL ((k0, v0) :: m') := rfl
    unfold safeLoadL
    rw [hml, strip_join_good _ hAne hgood]
    rw [if_neg (by
      intro hcon
      rw [hcon] at hhead
      simp at hhead)]
    rw [if_neg (by
      intro hcon
      rw [hcon] at hhead
      simp at hhead
      exact absurd hhead (alpha_ne c hkalpha).2.2.1.symm)]
    rw [pySplit_join_good _ hAne hgood]
    rw [List.filter_eq_self.mpr ?keep]
    case keep =>
      intro l hl
      obtain ⟨hs, hn⟩ := goodLine_strip l (hgood l hl)
      rw [hs]
      simpa using hn
    exact loadLines_dump _ hment hnd (by simp)

theorem rstrip_join_good (A : List (List Char)) (hA : A ≠ [])
    (hgood : ∀ l ∈ A, goodLine l) :
    pyRstripL (joinNlL A) = joinNlL A := by
  rcases hlast : A.getLast? with _ | ll
  · exact absurd (List.getLast?_eq_none_iff.mp hlast) hA
  have hllmem : ll ∈ A := List.mem_of_mem_getLast? (Option.mem_def.mpr hlast)
  obtain ⟨_, ⟨d, hd, hdsp⟩, _, _⟩ := hgood ll hllmem
  have hllne : ll ≠ [] := by
    intro hcon
    rw [hcon] at hd
    simp at hd
  apply pyRstrip_no_space
  intro e he
  rw [joinNl_getLast? A ll hlast hllne, hd] at he
  simp at he
  exact he ▸ hdsp

theorem strip_safeDump (m : Metadata) (hm : wfMeta m) :
    pyStripL (safeDumpL m) = joinNlL (blockLinesOf m) := by
  cases m with
  | nil => decide
  | cons e0 m' =>
    have hgood : ∀ l ∈ dumpLinesL (e0 :: m'), goodLine l :=
      dumpLines_good _ hm.1
    have hAne : dumpLinesL (e0 :: m') ≠ [] := by
      rw [dumpLines_cons]
      intro hcon
      exact entryLines_ne_nil e0 (List.append_eq_nil.mp hcon).1
    show pyStripL (joinNlL (dumpLinesL (e0 :: m')) ++ ['\n']) = joinNlL (dumpLinesL (e0 :: m'))
    rw [pyStrip_append_nl, strip_join_good _ hAne hgood]

theorem rstrip_safeDump (m : Metadata) (hm : wfMeta m) :
    pyRstripL (safeDumpL m) = joinNlL (blockLinesOf m) := by
  cases m with
  | nil => decide
  | cons e0 m' =>
    have hgood : ∀ l ∈ dumpLinesL (e0 :: m'), goodLine l :=
      dumpLines_good _ hm.1
    have hAne : dumpLinesL (e0 :: m') ≠ [] := by
      rw [dumpLines_cons]
      intro hcon
      exact entryLines_ne_nil e0 (List.append_eq_nil.mp hcon).1
    show pyRstripL (joinNlL (dumpLinesL (e0 :: m')) ++ ['\n']) = joinNlL (dumpLinesL (e0 :: m'))
    rw [pyRstrip_append_nl, rstrip_join_good _ hAne hgood]

theorem pyIndexOf_append (tgt : List Char) (A r : List (List Char))
    (hA : ∀ l ∈ A, l ≠ tgt) : pyIndexOf tgt (A ++ tgt :: r) = some A.length := by
  induction A with
  | nil => simp [pyIndexOf]
  | cons a A' ih =>
    rw [List.cons_append]
    show (if a = tgt then some 0 else (pyIndexOf tgt (A' ++ tgt :: r)).map (· + 1))
        = some (a :: A').length
    rw [if_neg (hA a (by simp)), ih (fun l hl => hA l (by simp [hl]))]
    rfl

theorem pyIndexOf_none (tgt : List Char) (ls : List (List Char))
    (h : ∀ l ∈ ls, l ≠ tgt) : pyIndexOf tgt ls = none := by
  induction ls with
  | nil => rfl
  | cons a ls' ih =>
    show (if a = tgt then some 0 else (pyIndexOf tgt ls').map (· + 1)) = none
    rw [if_neg (h a (by simp)), ih (fun l hl => h l (by simp [hl]))]
    rfl

theorem joinNl_append_single (A : List (List Char)) (hA : A ≠ []) (x : List Char) :
    joinNlL (A ++ [x]) = joinNlL A ++ '\n' :: x := by
  induction A with
  | nil => exact absurd rfl hA
  | cons a A' ih =>
    cases A' with
    | nil => rfl
    | cons b B =>
      rw [List.cons_append, joinNl_cons _ _ (by simp), joinNl_cons a (b :: B) (by simp),
        ih (by simp)]
      simp

theorem decodeBlock_dict (m : Metadata) (hm : wfMeta m) (body : String) :
    decodeBlock (joinNlL (blockLinesOf m)) body = (m, body) := by
  unfold decodeBlock
  rw [safeLoad_blockLines m hm]
  cases m <;> rfl

theorem extract_built (m : Metadata) (hm : wfMeta m) (b : List Char) :
    extract_frontmatter
        ⟨dashL ++ '\n' :: (joinNlL (blockLinesOf m) ++ '\n' :: (dashL ++ '\n' :: '\n' :: b))⟩
      = (m, ⟨joinNlL ([] :: pySplitlinesL b)⟩) := by
  have hgood := blockLines_good m hm.1
  have hBLne := blockLines_ne_nil m
  have hnl : ∀ l ∈ dashL :: (blockLinesOf m ++ [dashL]), '\n' ∉ l := by
    intro l hl
    rcases List.mem_cons.mp hl with h | h
    · subst h; decide
    · rcases List.mem_append.mp h with h2 | h2
      · exact (hgood l h2).2.2.1
      · simp at h2; subst h2; decide
  have hchars : dashL ++ '\n' :: (joinNlL (blockLinesOf m) ++ '\n' :: (dashL ++ '\n' :: '\n' :: b))
      = joinNlL (dashL :: (blockLinesOf m ++ [dashL])) ++ '\n' :: ('\n' :: b) := by
    rw [joinNl_cons _ _ (by simp), joinNl_append_single _ hBLne]
    simp
  unfold extract_frontmatter
  rw [show (String.toList
        ⟨dashL ++ '\n' :: (joinNlL (blockLinesOf m) ++ '\n' :: (dashL ++ '\n' :: '\n' :: b))⟩)
      = dashL ++ '\n' :: (joinNlL (blockLinesOf m) ++ '\n' :: (dashL ++ '\n' :: '\n' :: b))
    from rfl]
  rw [hchars, pySplit_front _ (by simp) hnl, pySplit_cons_nl]
  rw [List.cons_append]
  simp only []
  rw [if_pos (show pyStripL dashL = dashL from by decide)]
  rw [show (blockLinesOf m ++ [dashL]) ++ ([] :: pySplitlinesL b)
      = blockLinesOf m ++ dashL :: ([] :: pySplitlinesL b) from by simp]
  rw [pyIndexOf_append dashL (blockLinesOf m) _ (fun l hl => (hgood l hl).2.2.2)]
  simp only []
  rw [List.take_left]
  have hdrop : (dashL :: (blockLinesOf m ++ dashL :: ([] :: pySplitlinesL b))).drop
      ((blockLinesOf m).length + 2) = [] :: pySplitlinesL b := by
    rw [show (blockLinesOf m).length + 2 = (blockLinesOf m ++ [dashL]).length + 1
      from by simp]
    rw [List.drop_succ_cons]
    rw [show blockLinesOf m ++ dashL :: ([] :: pySplitlinesL b)
        = (blockLinesOf m ++ [dashL]) ++ ([] :: pySplitlinesL b) from by simp]
    rw [List.drop_left]
  rw [hdrop]
  exact decodeBlock_dict m hm _

theorem update_noop (m' : Metadata) (today : String) (hm : wfMeta m')
    (hget : getField m' "updated" = some (.str today)) (r : List Char) :
    update_frontmatter today
        ⟨dashL ++ '\n' :: (joinNlL (blockLinesOf m') ++ '\n' :: (dashL ++ '\n' :: r))⟩
      = (none, false) := by
  have hgood := blockLines_good m' hm.1
  have hBLne := blockLines_ne_nil m'
  have hnl : ∀ l ∈ dashL :: (blockLinesOf m' ++ [dashL]), '\n' ∉ l := by
    intro l hl
    rcases List.mem_cons.mp hl with h | h
    · subst h; decide
    · rcases List.mem_append.mp h with h2 | h2
      · exact (hgood l h2).2.2.1
      · simp at h2; subst h2; decide
  have hchars : dashL ++ '\n' :: (joinNlL (blockLinesOf m') ++ '\n' :: (dashL ++ '\n' :: r))
      = joinNlL (dashL :: (blockLinesOf m' ++ [dashL])) ++ '\n' :: r := by
    rw [joinNl_cons _ _ (by simp), joinNl_append_single _ hBLne]
    simp
  unfold update_frontmatter
  rw [show (String.toList
        ⟨dashL ++ '\n' :: (joinNlL (blockLinesOf m') ++ '\n' :: (dashL ++ '\n' :: r))⟩)
      = dashL ++ '\n' :: (joinNlL (blockLinesOf m') ++ '\n' :: (dashL ++ '\n' :: r))
    from rfl]
  rw [hchars, pySplit_front _ (by simp) hnl]
  rw [List.cons_append]
  simp only []
  rw [if_pos (show pyStripL dashL = dashL from by decide)]
  rw [show (blockLinesOf m' ++ [dashL]) ++ pySplitlinesL r
      = blockLinesOf m' ++ dashL :: pySplitlinesL r from by simp]
  rw [pyIndexOf_append dashL (blockLinesOf m') _ (fun l hl => (hgood l hl).2.2.2)]
  simp only []
  rw [List.take_left, safeLoad_blockLines m' hm]
  rcases hm0 : m' with _ | ⟨e0, m''⟩
  · rw [hm0] at hget
    simp [getField] at hget
  · rw [hm0] at hget
    have hred : (if (Loaded.dict (e0 :: m'')).truthy = true then Loaded.dict (e0 :: m'')
        else Loaded.dict []) = Loaded.dict (e0 :: m'') := by
      simp [Loaded.truthy]
    simp only []
    rw [hred]
    simp only []
    rw [if_neg (not_not_intro hget)]

theorem plain_dumpable (l : List Char) (h : isPlainSafeL l = true) :
    dumpableScalarL l = true := by
  unfold dumpableScalarL
  rw [List.all_eq_true]
  intro c hc
  have hpc := isPlainSafe_all l h c hc
  obtain ⟨_, h2, h3⟩ := plainChar_ne c hpc
  simp [h2, h3]

theorem parseScalar_wf (v : List Char) (yv : YamlValue)
    (h : parseScalarL v = some yv) : wfValue yv = true := by
  cases v with
  | nil => simp [parseScalarL] at h
  | cons c rest =>
    rw [parseScalar_cons] at h
    by_cases hq : c = '\''
    · rw [if_pos hq] at h
      rcases hl : rest.getLast? with _ | d
      · rw [hl] at h
        simp at h
      · rw [hl] at h
        simp only [] at h
        by_cases hd : d = '\''
        · rw [if_pos hd] at h
          by_cases hall : rest.dropLast.all (fun x => x ≠ '\'' && x ≠ '\n') = true
          · rw [if_pos hall] at h
            injection h with h2
            subst h2
            show dumpableScalarL rest.dropLast = true
            unfold dumpableScalarL
            rw [List.all_eq_true] at hall ⊢
            intro x hx
            have := hall x hx
            simp only [Bool.and_eq_true, decide_eq_true_eq] at this ⊢
            exact ⟨this.2, this.1⟩
          · rw [if_neg hall] at h
            simp at h
        · rw [if_neg hd] at h
          simp at h
    · rw [if_neg hq] at h
      by_cases h1 : (c :: rest) = "true".toList
      · rw [if_pos h1] at h
        injection h with h2
        subst h2
        rfl
      · rw [if_neg h1] at h
        by_cases h2 : (c :: rest) = "false".toList
        · rw [if_pos h2] at h
          injection h with h3
          subst h3
          rfl
        · rw [if_neg h2] at h
          by_cases h3 : isPlainSafeL (c :: rest) = true
          · rw [if_pos h3] at h
            injection h with h4
            subst h4
            show dumpableScalarL (c :: rest) = true
            exact plain_dumpable _ h3
          · rw [if_neg h3] at h
            simp at h

theorem parseItem_wf (l : List Char) (s : String) (h : parseItemL l = some s) :
    dumpableScalarL s.toList = true := by
  unfold parseItemL at h
  rcases hdw : l.dropWhile (· = ' ') with _ | ⟨c, rest⟩
  · rw [hdw] at h
    simp at h
  · rw [hdw] at h
    cases rest with
    | nil => simp at h
    | cons d rest' =>
      simp only [] at h
      by_cases hcd : (c = '-' && d = ' ') = true
      · rw [if_pos hcd] at h
        rcases hps : parseScalarL (trimSpacesL rest') with _ | yv
        · rw [hps] at h
          simp at h
        · rw [hps] at h
          have hwf := parseScalar_wf _ _ hps
          cases yv with
          | str t =>
            simp only [] at h
            injection h with h2
            subst h2
            exact hwf
          | bool b => simp at h
          | seq items => simp at h
      · rw [if_neg hcd] at h
        simp at h

theorem parseItems_wf (ls : List (List Char)) (items : List String)
    (h : parseItemsL ls = some items) :
    (∀ s ∈ items, dumpableScalarL s.toList = true) ∧ items.length = ls.length := by
  induction ls generalizing items with
  | nil =>
    simp only [parseItemsL] at h
    injection h with h2
    subst h2
    simp
  | cons l ls' ih =>
    simp only [parseItemsL] at h
    rcases hi : parseItemL l with _ | s
    · rw [hi] at h
      simp at h
    · rw [hi] at h
      rcases hr : parseItemsL ls' with _ | items'
      · rw [hr] at h
        simp at h
      · rw [hr] at h
        simp only [] at h
        injection h with h2
        subst h2
        obtain ⟨ha, hlen⟩ := ih items' hr
        refine ⟨?_, by simp [hlen]⟩
        intro s' hs'
        rcases List.mem_cons.mp hs' with h3 | h3
        · exact h3 ▸ parseItem_wf l s hi
        · exact ha s' h3

theorem splitKeyLine_plain (l : List Char) (k : List Char)
    (o : Option (List Char)) (h : splitKeyLineL l = some (k, o)) :
    isPlainSafeL k = true := by
  unfold splitKeyLineL at h
  rcases hc : splitColonL l with _ | ⟨k', rest⟩
  · rw [hc] at h
    simp at h
  · rw [hc] at h
    simp only [] at h
    by_cases hp : isPlainSafeL k' = true
    · rw [if_pos hp] at h
      cases rest with
      | nil =>
        injection h with h2
        rw [Prod.mk.injEq] at h2
        exact h2.1 ▸ hp
      | cons d v =>
        simp only [] at h
        by_cases hd : d = ' '
        · rw [if_pos hd] at h
          injection h with h2
          rw [Prod.mk.injEq] at h2
          exact h2.1 ▸ hp
        · rw [if_neg hd] at h
          simp at h
    · rw [if_neg hp] at h
      simp at h

theorem parseMapGo_wf (fuel : Nat) :
    ∀ (ls : List (List Char)) (es : List (String × YamlValue)),
      parseMapGo fuel ls = some es →
      ∀ p ∈ es, isPlainSafeL p.1.toList ∧ wfValue p.2 := by
  induction fuel with
  | zero =>
    intro ls es h
    cases ls with
    | nil =>
      have h' : (some ([] : List (String × YamlValue))) = some es := h
      injection h' with h2
      subst h2
      simp
    | cons l rest =>
      have h' : (none : Option (List (String × YamlValue))) = some es := h
      simp at h'
  | succ f ih =>
    intro ls es h
    cases ls with
    | nil =>
      have h' : (some ([] : List (String × YamlValue))) = some es := h
      injection h' with h2
      subst h2
      simp
    | cons l rest =>
      rw [parseMapGo_succ_cons] at h
      rcases hk : splitKeyLineL l with _ | ⟨k, o⟩
      · rw [hk] at h
        simp at h
      · rw [hk] at h
        have hkp := splitKeyLine_plain l k o hk
        cases o with
        | some v =>
          simp only [] at h
          rcases hs : parseScalarL v with _ | yv
          · rw [hs] at h
            simp at h
          · rw [hs] at h
            rcases hr : parseMapGo f rest with _ | es'
            · rw [hr] at h
              simp at h
            · rw [hr] at h
              simp only [] at h
              injection h with h2
              subst h2
              intro p hp
              rcases List.mem_cons.mp hp with h3 | h3
              · subst h3
                exact ⟨hkp, parseScalar_wf v yv hs⟩
              · exact ih rest es' hr p h3
        | none =>
          simp only [] at h
          by_cases he : (takeItemsL rest).1.isEmpty = true
          · rw [if_pos he] at h
            simp at h
          · rw [if_neg he] at h
            rcases hpi : parseItemsL (takeItemsL rest).1 with _ | items
            · rw [hpi] at h
              simp at h
            · rw [hpi] at h
              rcases hr : parseMapGo f (takeItemsL rest).2 with _ | es'
              · rw [hr] at h
                simp at h
              · rw [hr] at h
                simp only [] at h
                injection h with h2
                subst h2
                intro p hp
                rcases List.mem_cons.mp hp with h3 | h3
                · subst h3
                  obtain ⟨ha, hlen⟩ := parseItems_wf _ _ hpi
                  refine ⟨hkp, ?_⟩
                  have hine : items ≠ [] := by
                    intro hcon
                    subst hcon
                    have h4 : (takeItemsL rest).1 = [] :=
                      List.length_eq_zero.mp hlen.symm
                    exact he (by rw [h4]; rfl)
                  show wfValue (.seq items) = true
                  unfold wfValue
                  rw [Bool.and_eq_true]
                  constructor
                  · rcases items with _ | ⟨t, ts⟩
                    · exact absurd rfl hine
                    · rfl
                  · rw [List.all_eq_true]
                    exact fun s hs2 => ha s hs2
                · exact ih _ es' hr p h3

theorem setField_mem (m : Metadata) (k : String) (v : YamlValue) (p : String × YamlValue)
    (hp : p ∈ setField m k v) : p ∈ m ∨ p = (k, v) := by
  unfold setField at hp
  by_cases ha : m.any (fun q => q.1 = k) = true
  · rw [if_pos ha] at hp
    rw [List.mem_map] at hp
    obtain ⟨q, hq, heq⟩ := hp
    by_cases hqk : q.1 = k
    · rw [if_pos hqk] at heq
      exact Or.inr heq.symm
    · rw [if_neg hqk] at heq
      exact Or.inl (heq ▸ hq)
  · rw [if_neg ha] at hp
    rcases List.mem_append.mp hp with h | h
    · exact Or.inl h
    · simp at h
      exact Or.inr h

theorem setField_keys_nodup (m : Metadata) (k : String) (v : YamlValue)
    (h : (m.map Prod.fst).Nodup) : ((setField m k v).map Prod.fst).Nodup := by
  unfold setField
  by_cases ha : m.any (fun q => q.1 = k) = true
  · rw [if_pos ha]
    have hmap : (m.map (fun p => if p.1 = k then (k, v) else p)).map Prod.fst
        = m.map Prod.fst := by
      rw [List.map_map]
      apply List.map_congr_left
      intro p _
      by_cases hpk : p.1 = k
      · simp [hpk]
      · simp [hpk]
    rw [hmap]
    exact h
  · rw [if_neg ha]
    rw [List.map_append]
    have hkn : k ∉ m.map Prod.fst := by
      intro hmem
      rw [List.mem_map] at hmem
      obtain ⟨q, hq, hqk⟩ := hmem
      have hq2 : m.any (fun p => p.1 = k) = true :=
        List.any_eq_true.mpr ⟨q, hq, by simp [hqk]⟩
      exact ha hq2
    simp only [List.map_cons, List.map_nil]
    rw [List.nodup_append]
    refine ⟨h, List.nodup_singleton k, ?_⟩
    intro a ha2 hb
    simp only [List.mem_singleton] at hb
    subst hb
    exact hkn ha2

theorem setField_ne_nil (m : Metadata) (k : String) (v : YamlValue) :
    setField m k v ≠ [] := by
  unfold setField
  by_cases ha : m.any (fun q => q.1 = k) = true
  · rw [if_pos ha]
    cases m with
    | nil => simp at ha
    | cons p m' => simp
  · rw [if_neg ha]
    simp

theorem getField_setField (m : Metadata) (k : String) (v : YamlValue) :
    getField (setField m k v) k = some v := by
  unfold getField setField
  by_cases ha : m.any (fun q => q.1 = k) = true
  · rw [if_pos ha]
    induction m with
    | nil => simp at ha
    | cons p m' ih =>
      by_cases hpk : p.1 = k
      · simp only [List.map_cons, if_pos hpk]
        rw [List.find?_cons_of_pos _ (by simp)]
        rfl
      · simp only [List.map_cons, if_neg hpk]
        rw [List.find?_cons_of_neg _ (by simp [hpk])]
        apply ih
        rcases List.any_eq_true.mp ha with ⟨q, hq, hqk⟩
        rcases List.mem_cons.mp hq with h1 | h1
        · have h2 : p.1 = k := by
            have h3 := hqk
            rw [h1] at h3
            simpa using h3
          exact absurd h2 hpk
        · exact List.any_eq_true.mpr ⟨q, h1, by simpa using hqk⟩
  · rw [if_neg ha]
    have hnone : m.find? (fun p => p.1 = k) = none := by
      rw [List.find?_eq_none]
      intro q hq
      rw [List.any_eq_true] at ha
      push_neg at ha
      simpa using ha q hq
    rw [List.find?_append, hnone]
    simp only [Option.none_or]
    rw [List.find?_cons_of_pos _ (by simp)]
    rfl

theorem wfMeta_nil : wfMeta [] := ⟨by simp, by simp⟩

theorem setField_wf (m : Metadata) (hm : wfMeta m) (k : String) (v : YamlValue)
    (hk : isPlainSafeL k.toList = true) (hv : wfValue v = true) :
    wfMeta (setField m k v) := by
  constructor
  · intro p hp
    rcases setField_mem m k v p hp with h | h
    · exact hm.1 p h
    · rw [h]
      exact ⟨hk, hv⟩
  · exact setField_keys_nodup m k v hm.2

theorem dictOf_wf (es : List (String × YamlValue))
    (hes : ∀ p ∈ es, isPlainSafeL p.1.toList ∧ wfValue p.2) :
    wfMeta (dictOf es) := by
  unfold dictOf
  suffices hgen : ∀ acc : Metadata, wfMeta acc →
      wfMeta (es.foldl (fun m e => setField m e.1 e.2) acc) by
    exact hgen [] wfMeta_nil
  induction es with
  | nil => intro acc hacc; simpa using hacc
  | cons e es' ih =>
    intro acc hacc
    simp only [List.foldl_cons]
    have he := hes e (by simp)
    exact ih (fun p hp => hes p (by simp [hp])) _
      (setField_wf acc hacc e.1 e.2 he.1 he.2)

theorem safeLoad_dict_wf (block : List Char) (m : Metadata)
    (h : safeLoadL block = some (.dict m)) : wfMeta m := by
  unfold safeLoadL at h
  by_cases h1 : pyStripL block = []
  · rw [if_pos h1] at h
    injection h with h2
    injection h2
  · rw [if_neg h1] at h
    by_cases h2 : pyStripL block = ['\x7b', '\x7d']
    · rw [if_pos h2] at h
      injection h with h3
      injection h3 with h4
      exact h4 ▸ wfMeta_nil
    · rw [if_neg h2] at h
      unfold loadLines at h
      by_cases h3 : ((pySplitlinesL block).filter (fun l => pyStripL l ≠ [])).all
          isItemLineL = true
      · rw [if_pos h3] at h
        rcases hpi : parseItemsL ((pySplitlinesL block).filter (fun l => pyStripL l ≠ []))
            with _ | items
        · rw [hpi] at h
          simp at h
        · rw [hpi] at h
          simp at h
      · rw [if_neg h3] at h
        rcases hsh : (pySplitlinesL block).filter (fun l => pyStripL l ≠ [])
            with _ | ⟨l0, ls⟩
        · rw [hsh] at h
          have h' : (parseMapL []).map (fun es => Loaded.dict (dictOf es))
              = some (.dict m) := h
          have h'' : (some (Loaded.dict (dictOf []))) = some (.dict m) := h'
          injection h'' with h4
          injection h4 with h5
          exact h5 ▸ wfMeta_nil
        · rw [hsh] at h
          cases ls with
          | nil =>
            simp only [] at h
            by_cases h4 : (splitColonL l0).isSome = true
            · rw [if_pos h4] at h
              rcases hpm : parseMapL [l0] with _ | es
              · rw [hpm] at h
                simp at h
              · rw [hpm] at h
                simp only [Option.map_some'] at h
                injection h with h5
                injection h5 with h6
                exact h6 ▸ dictOf_wf es (parseMapGo_wf _ _ es hpm)
            · rw [if_neg h4] at h
              rcases hps : parseScalarL (pyStripL l0) with _ | yv
              · rw [hps] at h
                simp at h
              · rw [hps] at h
                simp at h
          | cons l1 ls' =>
            rcases hpm : parseMapL (l0 :: l1 :: ls') with _ | es
            · rw [hpm] at h
              simp at h
            · rw [hpm] at h
              simp only [Option.map_some'] at h
              injection h with h5
              injection h5 with h6
              exact h6 ▸ dictOf_wf es (parseMapGo_wf _ _ es hpm)

theorem built_eq (X B : List Char) :
    "---\n".toList ++ X ++ "\n---\n\n".toList ++ B
      = dashL ++ '\n' :: (X ++ '\n' :: (dashL ++ '\n' :: ('\n' :: B))) := by
  rw [show "---\n".toList = dashL ++ ['\n'] from rfl,
    show "\n---\n\n".toList = '\n' :: (dashL ++ ['\n', '\n']) from rfl]
  simp [dashL]

theorem normalized_body (b : List Char) (hne : b ≠ [])
    (hnorm : joinNlL (pySplitlinesL b) = b) :
    joinNlL ([] :: pySplitlinesL b) = '\n' :: b := by
  have hpne : pySplitlinesL b ≠ [] := by
    intro hcon
    rw [hcon] at hnorm
    exact hne hnorm.symm
  rw [joinNl_cons _ _ hpne, hnorm]
  rfl

theorem pyStrip_last_no_space (t : List Char) :
    ∀ c, (pyStripL t).getLast? = some c → isPySpace c = false := by
  intro c hc
  unfold pyStripL pyLstripL at hc
  have hsuf : (pyRstripL t).dropWhile isPySpace <:+ pyRstripL t :=
    List.dropWhile_suffix isPySpace
  obtain ⟨pre, hpre⟩ := hsuf
  have hdne : (pyRstripL t).dropWhile isPySpace ≠ [] := by
    intro hcon
    rw [hcon] at hc
    simp at hc
  have : (pyRstripL t).getLast? = some c := by
    rw [← hpre, getLast?_append_right pre _ hdne]
    exact hc
  exact pyRstrip_getLast_no_space t c this

theorem strip_body_built (x : List Char) (hx : x.getLast? ≠ some '\n') :
    joinNlL ([] :: pySplitlinesL (x ++ ['\n'])) = '\n' :: x := by
  cases hx0 : x with
  | nil => decide
  | cons c rest =>
    rw [← hx0]
    have hxne : x ≠ [] := by rw [hx0]; simp
    have hnorm : joinNlL (pySplitlinesL x) = x := joinNl_pySplit x hx
    have hpne : pySplitlinesL x ≠ [] := by
      intro hcon
      rw [hcon] at hnorm
      exact hxne hnorm.symm
    have hnl := pySplitlines_no_nl x
    have hsp : splitNl (x ++ ['\n']) = pySplitlinesL x ++ [[]] := by
      conv in x ++ ['\n'] => rw [← hnorm]
      rw [show (['\n'] : List Char) = '\n' :: [] from rfl]
      rw [splitNl_join_append _ hpne hnl []]
      rfl
    have hps : pySplitlinesL (x ++ ['\n']) = pySplitlinesL x := by
      unfold pySplitlinesL
      rw [hsp]
      rw [if_pos (List.getLast?_concat _)]
      rw [List.dropLast_concat]
      rfl
    rw [hps]
    exact normalized_body x hxne hnorm

theorem update_built_eq (m₂ : Metadata) (today : String) (B : List Char)
    (hm : wfMeta m₂) :
    "---\n".toList ++ pyRstripL (safeDumpL m₂) ++ "\n---\n\n".toList ++ B
      = dashL ++ '\n' :: (joinNlL (blockLinesOf m₂) ++ '\n' :: (dashL ++ '\n' :: ('\n' :: B))) := by
  rw [rstrip_safeDump m₂ hm, built_eq]

theorem wfMeta_updated (today : String) (htoday : dumpableScalarL today.toList = true) :
    wfMeta [("updated", YamlValue.str today)] := by
  constructor
  · intro p hp
    simp at hp
    rw [hp]
    refine ⟨?_, htoday⟩
    show isPlainSafeL ("updated" : String).toList = true
    decide
  · simp

theorem getField_updated (today : String) :
    getField [("updated", YamlValue.str today)] "updated"
      = some (YamlValue.str today) := by
  unfold getField
  rw [List.find?_cons_of_pos _ (by simp)]
  rfl

theorem update_fresh_second (text today : String)
    (htoday : dumpableScalarL today.toList = true) :
    update_frontmatter today (freshBlock today text) = (none, false) := by
  have hm₁ := wfMeta_updated today htoday
  unfold freshBlock
  rw [update_built_eq _ today _ hm₁]
  exact update_noop _ today hm₁ (getField_updated today) _

/-- Claim C6: the timestamp update is idempotent within one day.  Whenever
a call of `update_frontmatter` writes content `c` to the file (returning
`True`), a second call on `c` with the same date finds the existing
`updated` value equal to the computed one, reports the file as unchanged
and performs no write.  `today` ranges over strings without newline or
single-quote characters, which `str(date.today())` always satisfies. -/
theorem C6_update_idempotent (text today c : String)
    (htoday : dumpableScalarL today.toList = true)
    (h : update_frontmatter today text = (some c, true)) :
    update_frontmatter today c = (none, false) := by
  unfold update_frontmatter at h
  rcases hl : pySplitlinesL text.toList with _ | ⟨first, rest⟩
  · rw [hl] at h
    simp only [] at h
    have hc : freshBlock today text = c := by
      have h2 := congrArg Prod.fst h
      simpa using h2
    rw [← hc]
    exact update_fresh_second text today htoday
  · rw [hl] at h
    simp only [] at h
    by_cases hfirst : pyStripL first = dashL
    · rw [if_pos hfirst] at h
      rcases hi : pyIndexOf dashL rest with _ | i
      · rw [hi] at h
        simp at h
      · rw [hi] at h
        simp only [] at h
        rcases hload : safeLoadL (joinNlL (rest.take i)) with _ | L0
        · rw [hload] at h
          simp at h
        · rw [hload] at h
          simp only [] at h
          rcases hL1 : (if L0.truthy = true then L0 else Loaded.dict [])
              with _ | v | items | meta
          · rw [hL1] at h
            simp at h
          · rw [hL1] at h
            simp at h
          · rw [hL1] at h
            simp at h
          · rw [hL1] at h
            simp only [] at h
            by_cases hup : getField meta "updated" ≠ some (.str today)
            · rw [if_pos hup] at h
              have hc : (⟨"---\n".toList ++
                    pyRstripL (safeDumpL (setField meta "updated" (.str today))) ++
                    "\n---\n\n".toList ++ joinNlL (rest.drop (i + 1))⟩ : String) = c := by
                have h2 := congrArg Prod.fst h
                simpa using h2
              rw [← hc]
              have hwfmeta : wfMeta meta := by
                by_cases ht : L0.truthy = true
                · rw [if_pos ht] at hL1
                  subst hL1
                  exact safeLoad_dict_wf _ _ hload
                · rw [if_neg ht] at hL1
                  injection hL1 with h5
                  exact h5 ▸ wfMeta_nil
              have hm₂ : wfMeta (setField meta "updated" (.str today)) := by
                apply setField_wf meta hwfmeta "updated" (.str today) ?hkk
                  (show wfValue (YamlValue.str today) = true from htoday)
                case hkk =>
                  show isPlainSafeL ("updated" : String).toList = true
                  decide
              rw [update_built_eq _ today _ hm₂]
              exact update_noop _ today hm₂
                (getField_setField meta "updated" (.str today)) _
            · rw [if_neg hup] at h
              simp at h
    · rw [if_neg hfirst] at h
      have hc : freshBlock today text = c := by
        have h2 := congrArg Prod.fst h
        simpa using h2
      rw [← hc]
      exact update_fresh_second text today htoday

/-- Witness for C6 at a concrete file: the first call on a file without
frontmatter writes a fresh block; the second call on the written content
changes nothing. -/
theorem C6_update_idempotent_witness :
    update_frontmatter "2026-10-12"
        "---\nupdated: '2026-10-12'\n---\n\nHello world\n" = (none, false) :=
  C6_update_idempotent "Hello world" "2026-10-12"
    "---\nupdated: '2026-10-12'\n---\n\nHello world\n"
    (by decide) (by decide)

/- ------------------------------------------------------------------ -/
/- Claim theorems.                                                     -/
/- ------------------------------------------------------------------ -/

/-- Counterexample to claim C1 as stated: decoding `"---\ntitle: Foo\n---\n\nHello"`,
re-encoding the unmodified pair and decoding again does NOT reproduce the
first decode — the body comes back as `"\n\nHello"` instead of `"\nHello"`,
because `encode` emits a blank separator line while `extract_frontmatter`
keeps the line after the closing marker inside the body. -/
theorem C1_roundtrip_cex :
    extract_frontmatter
        (encode (extract_frontmatter "---\ntitle: Foo\n---\n\nHello").1
          (extract_frontmatter "---\ntitle: Foo\n---\n\nHello").2)
      ≠ extract_frontmatter "---\ntitle: Foo\n---\n\nHello" ∧
    extract_frontmatter "---\ntitle: Foo\n---\n\nHello"
      = ([("title", YamlValue.str "Foo")], "\nHello") ∧
    extract_frontmatter
        (encode [("title", YamlValue.str "Foo")] "\nHello")
      = ([("title", YamlValue.str "Foo")], "\n\nHello") := by decide

theorem pySplitlines_eq_nil (x : List Char) (h : pySplitlinesL x = []) :
    x = [] := by
  have hx := joinNl_splitNl x
  unfold pySplitlinesL at h
  by_cases hd : (splitNl x).getLast? = some []
  · rw [if_pos hd] at h
    rcases hsp : splitNl x with _ | ⟨p, ps⟩
    · exact absurd hsp (splitNl_ne_nil x)
    · rw [hsp] at h hd hx
      cases ps with
      | nil =>
        simp at hd
        rw [hd] at hx
        exact hx.symm
      | cons q qs => simp at h
  · rw [if_neg hd] at h
    exact absurd h (splitNl_ne_nil x)

/-- Claim C1 (amended): decode-then-encode-then-decode reproduces the
metadata exactly (same keys, same values, same insertion order, nothing
lost or duplicated) for every well-formed mapping `m` and every body
`b`; the body of the second decode is empty when `b` is empty, and
otherwise is a newline followed by `b` normalized by
splitlines-and-rejoin (which drops a single trailing newline when `b`
ends in one and leaves `b` unchanged otherwise) — encode's blank
separator line after the closing marker is absorbed into the body. -/
theorem C1_roundtrip_amended (m : Metadata) (b : String) (hm : wfMeta m) :
    extract_frontmatter (encode m b)
      = (m, if b = "" then ""
            else "\n" ++ (⟨joinNlL (pySplitlinesL b.toList)⟩ : String)) := by
  have henc : encode m b
      = ⟨dashL ++ '\n' :: (joinNlL (blockLinesOf m) ++ '\n' ::
          (dashL ++ '\n' :: '\n' :: b.toList))⟩ := by
    unfold encode
    rw [strip_safeDump m hm]
    exact congrArg String.mk (built_eq _ _)
  rw [henc, extract_built m hm b.toList]
  rw [Prod.mk.injEq]
  refine ⟨rfl, ?_⟩
  by_cases hb : b = ""
  · subst hb
    rw [if_pos rfl]
    rfl
  · rw [if_neg hb]
    have hbl : b.toList ≠ [] := by
      intro hcon
      exact hb (String.ext hcon)
    have hpne : pySplitlinesL b.toList ≠ [] := by
      intro hcon
      exact hbl (pySplitlines_eq_nil b.toList hcon)
    rw [joinNl_cons _ _ hpne]
    apply String.ext
    rw [String.data_append]
    rfl

/-- Witness for the amended C1 at a concrete document. -/
theorem C1_roundtrip_amended_witness :
    extract_frontmatter (encode [("title", YamlValue.str "Foo")] "Hi")
      = ([("title", YamlValue.str "Foo")],
         if ("Hi" : String) = "" then ""
         else "\n" ++ (⟨joinNlL (pySplitlinesL ("Hi" : String).toList)⟩ : String)) :=
  C1_roundtrip_amended [("title", YamlValue.str "Foo")] "Hi" (by decide)

/-- Counterexample to claim C2 as stated: a block parsing to a sequence
(a non-mapping) makes `extract_frontmatter` return the empty mapping with
the text AFTER the closing marker as body, not the entire original
input. -/
theorem C2_degradation_cex :
    extract_frontmatter "---\n- a\n---\nHello" = ([], "Hello") ∧
    safeLoadL ("- a".toList) = some (.list ["a"]) ∧
    ("Hello" : String) ≠ "---\n- a\n---\nHello" := by decide

/-- A load result that is not a mapping: a parse failure, `None`, a
scalar, or a sequence. -/
def nonMappingLoad : Option Loaded → Bool
  | some (.dict _) => false
  | _ => true

/-- Claim C2 (amended): when the delimited block fails to parse or parses
to a non-mapping value, `extract_frontmatter` returns the empty mapping
together with the text after the closing marker as body (the malformed
block and both marker lines are discarded, not kept); no exception
reaches the caller — the decoder is total. -/
theorem C2_degradation_amended (text : String) (first : List Char)
    (rest : List (List Char)) (i : Nat)
    (hlines : pySplitlinesL text.toList = first :: rest)
    (hfirst : pyStripL first = dashL)
    (hidx : pyIndexOf dashL rest = some i)
    (hload : nonMappingLoad (safeLoadL (joinNlL (rest.take i))) = true) :
    extract_frontmatter text = ([], ⟨joinNlL ((first :: rest).drop (i + 2))⟩) := by
  unfold extract_frontmatter
  rw [hlines]
  simp only []
  rw [if_pos hfirst, hidx]
  simp only []
  unfold decodeBlock
  rcases hl0 : safeLoadL (joinNlL (rest.take i)) with _ | L0
  · rfl
  · rw [hl0] at hload
    cases L0 with
    | null => rfl
    | scalar v =>
      simp only []
      by_cases ht : (Loaded.scalar v).truthy = true
      · rw [if_pos ht]
      · rw [if_neg ht]
    | list items =>
      simp only []
      by_cases ht : (Loaded.list items).truthy = true
      · rw [if_pos ht]
      · rw [if_neg ht]
    | dict m =>
      simp [nonMappingLoad] at hload

/-- Witness for the amended C2: a block that raises a parse error. -/
theorem C2_degradation_amended_witness :
    extract_frontmatter "---\n[oops\n---\nWorld"
      = ([], ⟨joinNlL ((("---".toList) ::
          ["[oops".toList, "---".toList, "World".toList]).drop 3)⟩) :=
  C2_degradation_amended "---\n[oops\n---\nWorld" ("---".toList)
    ["[oops".toList, "---".toList, "World".toList] 1
    (by decide) (by decide) (by decide) (by decide)

/-- Counterexample to claim C3 as stated: the worked example decodes to
body `"\nHello"` (the blank line after the closing marker is kept inside
the body), not to `"Hello"`. -/
theorem C3_example_cex :
    (extract_frontmatter "---\ntitle: Foo\ntags:\n  - a\n  - b\n---\n\nHello").2
      ≠ "Hello" := by decide

/-- Claim C3 (amended): the worked example decodes to exactly the claimed
metadata `{title: "Foo", tags: ["a", "b"]}` — keys, values and order as
stated — while the body is `"\nHello"`, one leading newline longer than
the claimed `"Hello"`. -/
theorem C3_example_amended :
    extract_frontmatter "---\ntitle: Foo\ntags:\n  - a\n  - b\n---\n\nHello"
      = ([("title", YamlValue.str "Foo"), ("tags", YamlValue.seq ["a", "b"])],
         "\nHello") := by decide

/-- Counterexample to claim C4 as stated: a closing line that strips to
the marker but carries whitespace (`" --- "`) does NOT terminate the
block — the exact-match search fails and the whole text degrades to
body, instead of decoding `{title: "Foo"}` as the claim predicts. -/
theorem C4_marker_cex :
    pyStripL (" --- ".toList) = dashL ∧
    extract_frontmatter "---\ntitle: Foo\n --- \nHello"
      = ([], "---\ntitle: Foo\n --- \nHello") ∧
    (extract_frontmatter "---\ntitle: Foo\n --- \nHello").1
      ≠ [("title", YamlValue.str "Foo")] := by decide

theorem getLast?_append_lines (x y : List (List Char)) (hy : y ≠ []) :
    (x ++ y).getLast? = y.getLast? := by
  rw [List.getLast?_append]
  rcases hl : y.getLast? with _ | a
  · exact absurd (List.getLast?_eq_none_iff.mp hl) hy
  · rfl

/-- Claim C4 (amended): `extract_frontmatter` locates the end of the
metadata block at the first subsequent line EXACTLY equal to `"---"`
(Python `list.index`); lines that merely strip to the marker do not
close the block.  For any block lines `ys` none of which is exactly the
marker and any body lines `bs`, the assembled document splits at the
exact marker line. -/
theorem C4_exact_marker (ys bs : List (List Char))
    (hys : dashL ∉ ys)
    (hnl : ∀ l ∈ ys ++ bs, '\n' ∉ l)
    (hlast : bs.getLast? ≠ some []) :
    extract_frontmatter ⟨joinNlL (dashL :: ys ++ dashL :: bs)⟩
      = decodeBlock (joinNlL ys) ⟨joinNlL bs⟩ := by
  have hA : pySplitlinesL (joinNlL (dashL :: ys ++ dashL :: bs))
      = dashL :: ys ++ dashL :: bs := by
    unfold pySplitlinesL
    rw [splitNl_join _ (by simp) ?hnl2]
    case hnl2 =>
      intro l hl
      rcases List.mem_cons.mp hl with h | h
      · subst h; decide
      · rcases List.mem_append.mp h with h2 | h2
        · exact hnl l (List.mem_append.mpr (Or.inl h2))
        · rcases List.mem_cons.mp h2 with h3 | h3
          · subst h3; decide
          · exact hnl l (List.mem_append.mpr (Or.inr h3))
    rw [if_neg ?hl2]
    case hl2 =>
      cases bs with
      | nil =>
        intro hcon
        rw [show dashL :: ys ++ [dashL] = (dashL :: ys) ++ [dashL] from rfl,
          List.getLast?_concat] at hcon
        simp [dashL] at hcon
      | cons b bs' =>
        intro hcon
        rw [show dashL :: ys ++ dashL :: (b :: bs')
            = (dashL :: ys ++ [dashL]) ++ (b :: bs') from by simp,
          getLast?_append_lines _ _ (by simp)] at hcon
        exact hlast hcon
  unfold extract_frontmatter
  rw [show String.toList ⟨joinNlL (dashL :: ys ++ dashL :: bs)⟩
      = joinNlL (dashL :: ys ++ dashL :: bs) from rfl]
  rw [hA]
  show (if pyStripL dashL = dashL then
      match pyIndexOf dashL (ys ++ dashL :: bs) with
      | none => (([], ⟨joinNlL (dashL :: ys ++ dashL :: bs)⟩) : Metadata × String)
      | some i =>
        decodeBlock (joinNlL ((ys ++ dashL :: bs).take i))
          ⟨joinNlL ((dashL :: (ys ++ dashL :: bs)).drop (i + 2))⟩
    else ([], ⟨joinNlL (dashL :: ys ++ dashL :: bs)⟩))
    = decodeBlock (joinNlL ys) ⟨joinNlL bs⟩
  rw [if_pos (show pyStripL dashL = dashL from by decide)]
  rw [pyIndexOf_append dashL ys bs (fun l hl hcon => hys (hcon ▸ hl))]
  simp only []
  rw [List.take_left]
  rw [show ys.length + 2 = (ys ++ [dashL]).length + 1 from by simp]
  rw [List.drop_succ_cons]
  rw [show ys ++ dashL :: bs = (ys ++ [dashL]) ++ bs from by simp]
  rw [List.drop_left]

/-- Witness for the amended C4 at a concrete document. -/
theorem C4_exact_marker_witness :
    extract_frontmatter "---\ntitle: Foo\n---\nHi"
      = decodeBlock ("title: Foo".toList) "Hi" := by
  have h := C4_exact_marker ["title: Foo".toList] ["Hi".toList]
    (by decide) (by decide) (by decide)
  exact h

/-- Counterexample to claim C5 as stated: an empty mapping does not
produce an empty block (two marker lines with nothing between) —
`yaml.safe_dump` renders the empty dict as the two-character flow token,
which ends up as a line between the markers. -/
theorem C5_encode_empty_cex :
    encode [] "Hello" = "---\n\x7b\x7d\n---\n\nHello" ∧
    encode [] "Hello" ≠ "---\n\n---\n\nHello" ∧
    encode [] "Hello" ≠ "---\n---\n\nHello" := by decide

/-- Claim C5 (amended): `encode` returns exactly
`"---\n" + serialize(m) + "\n---\n\n" + body`; for a well-formed mapping
the serialization preserves insertion order with no implicit re-sorting,
loss or duplication (reading it back yields exactly `m`); the empty
mapping yields a block containing the single flow-token line, not an
empty block. -/
theorem C5_encode_format (m : Metadata) (body : String) (hm : wfMeta m) :
    encode m body
      = "---\n" ++ (⟨pyStripL (safeDumpL m)⟩ : String) ++ "\n---\n\n" ++ body ∧
    safeLoadL (pyStripL (safeDumpL m)) = some (.dict m) ∧
    encode [] body = "---\n\x7b\x7d\n---\n\n" ++ body := by
  refine ⟨?_, ?_, ?_⟩
  · apply String.ext
    simp [encode, String.data_append]
  · rw [strip_safeDump m hm]
    exact safeLoad_blockLines m hm
  · apply String.ext
    simp [encode, String.data_append]
    rfl

/-- Witness for the amended C5 at a concrete mapping and body. -/
theorem C5_encode_format_witness :
    encode [("k", YamlValue.str "v")] "B"
        = "---\n" ++ (⟨pyStripL (safeDumpL [("k", YamlValue.str "v")])⟩ : String)
          ++ "\n---\n\n" ++ "B" ∧
    safeLoadL (pyStripL (safeDumpL [("k", YamlValue.str "v")]))
        = some (.dict [("k", YamlValue.str "v")]) ∧
    encode [] "B" = "---\n\x7b\x7d\n---\n\n" ++ "B" :=
  C5_encode_format [("k", YamlValue.str "v")] "B" (by decide)

/-- Counterexample to claim C7 as stated: on a file with no frontmatter
the written body is not byte-for-byte the original text — the updater
strips surrounding whitespace and appends a newline (`" Hello"` becomes
`"Hello\n"`). -/
theorem C7_fresh_body_cex :
    update_frontmatter "2026-10-11" " Hello"
        = (some "---\nupdated: '2026-10-11'\n---\n\nHello\n", true) ∧
    ("---\nupdated: '2026-10-11'\n---\n\nHello\n" : String)
        ≠ "---\nupdated: '2026-10-11'\n---\n\n" ++ " Hello" := by decide

/-- Claim C7 (amended): on a file whose metadata is entirely absent the
updater creates a fresh block containing only the `updated` field, and
keeps the body as the original text stripped of leading and trailing
whitespace with a newline appended (not byte-for-byte); decoding the
written content recovers exactly the one-field mapping with the stripped
body after the separator newline. -/
theorem C7_fresh_block (text today : String)
    (htoday : dumpableScalarL today.toList = true)
    (hnofm : ∀ first rest, pySplitlinesL text.toList = first :: rest →
      pyStripL first ≠ dashL) :
    update_frontmatter today text = (some (freshBlock today text), true) ∧
    freshBlock today text
      = "---\n" ++ (⟨pyRstripL (safeDumpL [("updated", YamlValue.str today)])⟩ : String)
        ++ "\n---\n\n" ++ (⟨pyStripL text.toList⟩ : String) ++ "\n" ∧
    extract_frontmatter (freshBlock today text)
      = ([("updated", YamlValue.str today)], "\n" ++ (⟨pyStripL text.toList⟩ : String)) := by
  refine ⟨?_, ?_, ?_⟩
  · unfold update_frontmatter
    rcases hl : pySplitlinesL text.toList with _ | ⟨first, rest⟩
    · rfl
    · simp only []
      rw [if_neg (hnofm first rest hl)]
  · apply String.ext
    simp [freshBlock, String.data_append]
  · have hm₁ := wfMeta_updated today htoday
    unfold freshBlock
    rw [update_built_eq [("updated", YamlValue.str today)] today
      (pyStripL text.toList ++ ['\n']) hm₁]
    rw [extract_built _ hm₁ _]
    rw [Prod.mk.injEq]
    refine ⟨rfl, ?_⟩
    rw [strip_body_built (pyStripL text.toList) ?hlast]
    case hlast =>
      intro hcon
      have hsp := pyStrip_last_no_space text.toList '\n' hcon
      exact absurd hsp (by decide)
    apply String.ext
    rw [String.data_append]
    rfl

/-- Witness for the amended C7 at a concrete file. -/
theorem C7_fresh_block_witness :
    update_frontmatter "2026-10-11" "Doc body  "
        = (some (freshBlock "2026-10-11" "Doc body  "), true) ∧
    freshBlock "2026-10-11" "Doc body  "
      = "---\n" ++ (⟨pyRstripL (safeDumpL [("updated", YamlValue.str "2026-10-11")])⟩ : String)
        ++ "\n---\n\n" ++ (⟨pyStripL ("Doc body  " : String).toList⟩ : String) ++ "\n" ∧
    extract_frontmatter (freshBlock "2026-10-11" "Doc body  ")
      = ([("updated", YamlValue.str "2026-10-11")],
         "\n" ++ (⟨pyStripL ("Doc body  " : String).toList⟩ : String)) :=
  C7_fresh_block "Doc body  " "2026-10-11" (by decide)
    (by
      intro first rest h
      have h2 : first :: rest = [("Doc body  " : String).toList] := by
        rw [← h]
        decide
      injection h2 with h3 h4
      rw [h3]
      decide)

/-- Claim C8 (code bug): the request sent to the completion service does
not use the caller-supplied CLI configuration.  `call_model` receives
`model`, `max_tokens` and `temperature` from `main`'s parsed arguments
but builds the request from the hard-coded literals `"gpt-4o-mini"`,
`600` and `0.2` (chatgpt_summary.py lines 99, 104, 105), contradicting
the comment `The model call now uses CLI parameters` on line 151. -/
theorem C8_call_model_hardcoded :
    call_model "B" "gpt-4o" 1000 (9 / 10)
        = { model := "gpt-4o-mini", systemContent := build_system_prompt,
            userContent := "B", max_tokens := 600, temperature := 2 / 10 } ∧
    ("gpt-4o-mini" : String) ≠ "gpt-4o" ∧
    (600 : Nat) ≠ 1000 ∧
    ((2 : ℚ) / 10) ≠ 9 / 10 :=
  ⟨rfl, by decide, by decide, by norm_num⟩

/-- Claim C9 (confirmed): a document starting with the marker line but
containing no subsequent line equal to the marker decodes to the empty
mapping with the entire original text unchanged as body. -/
theorem C9_missing_close (text : String) (first : List Char)
    (rest : List (List Char))
    (hlines : pySplitlinesL text.toList = first :: rest)
    (hfirst : pyStripL first = dashL)
    (hnone : ∀ l ∈ rest, l ≠ dashL) :
    extract_frontmatter text = ([], text) := by
  unfold extract_frontmatter
  rw [hlines]
  simp only []
  rw [if_pos hfirst, pyIndexOf_none dashL rest hnone]

/-- Witness for C9 at a concrete unterminated document. -/
theorem C9_missing_close_witness :
    extract_frontmatter "---\nno end here" = ([], "---\nno end here") :=
  C9_missing_close "---\nno end here" ("---".toList) ["no end here".toList]
    (by decide) (by decide) (by decide)

/-- Counterexample to claim C10 as stated: a frontmatter block that
parses to the non-mapping scalar `false` does NOT leave the file
untouched — `yaml.safe_load(...) or {}` coerces the falsy scalar to the
empty dict, so the updater rewrites the file with a fresh `updated`
field and returns `True`. -/
theorem C10_no_touch_cex :
    safeLoadL ("false".toList) = some (.scalar (YamlValue.bool false)) ∧
    update_frontmatter "2026-10-12" "---\nfalse\n---\nbody"
        = (some "---\nupdated: '2026-10-12'\n---\n\nbody", true) := by decide

/-- Claim C10 (amended): the timestamp updater returns `False` and
performs no write when the frontmatter block is unterminated, fails to
parse, or parses to a TRUTHY non-mapping value (a truthy scalar or a
nonempty sequence); a falsy parse result is instead coerced to the empty
mapping by `or {}` and the file is rewritten. -/
theorem C10_no_touch (text today : String) (first : List Char)
    (rest : List (List Char))
    (hlines : pySplitlinesL text.toList = first :: rest)
    (hfirst : pyStripL first = dashL)
    (hcond : (∀ l ∈ rest, l ≠ dashL) ∨
      ∃ i, pyIndexOf dashL rest = some i ∧
        (safeLoadL (joinNlL (rest.take i)) = none ∨
         (∃ v, safeLoadL (joinNlL (rest.take i)) = some (.scalar v) ∧
            (Loaded.scalar v).truthy = true) ∨
         (∃ items, safeLoadL (joinNlL (rest.take i)) = some (.list items) ∧
            items ≠ []))) :
    update_frontmatter today text = (none, false) := by
  unfold update_frontmatter
  rw [hlines]
  simp only []
  rw [if_pos hfirst]
  rcases hcond with hnone | ⟨i, hidx, hload⟩
  · rw [pyIndexOf_none dashL rest hnone]
  · rw [hidx]
    simp only []
    rcases hload with h1 | ⟨v, h2, htr⟩ | ⟨items, h3, hne⟩
    · rw [h1]
    · rw [h2]
      simp only []
      rw [if_pos htr]
    · rw [h3]
      simp only []
      rw [if_pos (show (Loaded.list items).truthy = true from by
        rcases items with _ | ⟨t, ts⟩
        · exact absurd rfl hne
        · rfl)]

/-- Witness for the amended C10: a block parsing to a nonempty sequence
leaves the file untouched. -/
theorem C10_no_touch_witness :
    update_frontmatter "2026-10-12" "---\n- x\n---\nB" = (none, false) :=
  C10_no_touch "---\n- x\n---\nB" "2026-10-12" ("---".toList)
    ["- x".toList, "---".toList, "B".toList]
    (by decide) (by decide)
    (Or.inr ⟨1, by decide, Or.inr (Or.inr ⟨["x"], by decide, by decide⟩)⟩)

end Frontmatter
